import Mathlib

/-!
Verification of the file-change detection and transactional chunk-replacement
logic of the document-indexing utility (code/embeddings/ingest.py).

The Python source is shallowly embedded: machine integers are `Nat` with
explicit reduction modulo 2^32 where the source relies on 32-bit overflow
(the MD5 chunk-id hash), stateful watcher code becomes explicit state
passing over a `WatchState` record, and fallible code returns `Option`.
-/

namespace Ingest

/-! ## MD5 (hashlib.md5), used by `process_file` to derive chunk ids.

The source computes `hashlib.md5(f"{file_path}_{i}".encode()).hexdigest()`.
We embed the full MD5 algorithm over `Nat` bytes so chunk ids of concrete
paths can be evaluated.  All paths in scope are ASCII, so `encode` (UTF-8)
is byte-per-character. -/

def md5K : List Nat := [
  3614090360, 3905402710, 606105819, 3250441966, 4118548399, 1200080426, 2821735955, 4249261313,
  1770035416, 2336552879, 4294925233, 2304563134, 1804603682, 4254626195, 2792965006, 1236535329,
  4129170786, 3225465664, 643717713, 3921069994, 3593408605, 38016083, 3634488961, 3889429448,
  568446438, 3275163606, 4107603335, 1163531501, 2850285829, 4243563512, 1735328473, 2368359562,
  4294588738, 2272392833, 1839030562, 4259657740, 2763975236, 1272893353, 4139469664, 3200236656,
  681279174, 3936430074, 3572445317, 76029189, 3654602809, 3873151461, 530742520, 3299628645,
  4096336452, 1126891415, 2878612391, 4237533241, 1700485571, 2399980690, 4293915773, 2240044497,
  1873313359, 4264355552, 2734768916, 1309151649, 4149444226, 3174756917, 718787259, 3951481745]

def md5S : List Nat := [
  7, 12, 17, 22, 7, 12, 17, 22, 7, 12, 17, 22, 7, 12, 17, 22,
  5, 9, 14, 20, 5, 9, 14, 20, 5, 9, 14, 20, 5, 9, 14, 20,
  4, 11, 16, 23, 4, 11, 16, 23, 4, 11, 16, 23, 4, 11, 16, 23,
  6, 10, 15, 21, 6, 10, 15, 21, 6, 10, 15, 21, 6, 10, 15, 21]

def mask32 : Nat := 4294967295

def rotl32 (x s : Nat) : Nat :=
  ((x <<< s) ||| (x >>> (32 - s))) &&& mask32

def not32 (x : Nat) : Nat := x ^^^ mask32

/-- Pad a byte message per MD5: append 0x80, zero-fill to 56 mod 64, then the
    original bit length as 8 little-endian bytes. -/
def md5pad (msg : List Nat) : List Nat :=
  let bitLen := msg.length * 8
  let withOne := msg ++ [128]
  let zeros := (64 - (withOne.length + 8) % 64) % 64
  withOne ++ List.replicate zeros 0 ++
    (List.range 8).map (fun i => (bitLen >>> (8 * i)) &&& 255)

/-- Split a list into consecutive pieces of length `n` (by repeated take).
    Structural recursion on a fuel bounded by the list length, so the kernel
    can evaluate it; `fuel = l.length` is enough whenever `n > 0`. -/
def chunksOfLenFuel (n : Nat) : Nat → List Nat → List (List Nat)
  | 0, _ => []
  | _, [] => []
  | fuel + 1, x :: xs => (x :: xs).take n :: chunksOfLenFuel n fuel ((x :: xs).drop n)

def chunksOfLen (n : Nat) (l : List Nat) : List (List Nat) :=
  chunksOfLenFuel n l.length l

/-- Decode 4 little-endian bytes starting at position `4*j` into a 32-bit word. -/
def leWord (block : List Nat) (j : Nat) : Nat :=
  (block.getD (4 * j) 0) |||
  ((block.getD (4 * j + 1) 0) <<< 8) |||
  ((block.getD (4 * j + 2) 0) <<< 16) |||
  ((block.getD (4 * j + 3) 0) <<< 24)

/-- One MD5 round step index `i` on state `(a, b, c, d)` with message words `m`. -/
def md5step (m : Nat → Nat) (st : Nat × Nat × Nat × Nat) (i : Nat) :
    Nat × Nat × Nat × Nat :=
  let a := st.1
  let b := st.2.1
  let c := st.2.2.1
  let d := st.2.2.2
  let f :=
    if i < 16 then (b &&& c) ||| (not32 b &&& d)
    else if i < 32 then (d &&& b) ||| (not32 d &&& c)
    else if i < 48 then b ^^^ c ^^^ d
    else c ^^^ (b ||| not32 d)
  let g :=
    if i < 16 then i
    else if i < 32 then (5 * i + 1) % 16
    else if i < 48 then (3 * i + 5) % 16
    else (7 * i) % 16
  let fv := (f + a + md5K.getD i 0 + m g) &&& mask32
  (d, (b + rotl32 fv (md5S.getD i 0)) &&& mask32, b, c)

/-- Process one 64-byte block, updating the running digest state. -/
def md5block (digest : Nat × Nat × Nat × Nat) (block : List Nat) :
    Nat × Nat × Nat × Nat :=
  let m := fun g => leWord block g
  let st0 := (digest.1, digest.2.1, digest.2.2.1, digest.2.2.2)
  let st := (List.range 64).foldl (md5step m) st0
  ((digest.1 + st.1) &&& mask32,
   (digest.2.1 + st.2.1) &&& mask32,
   (digest.2.2.1 + st.2.2.1) &&& mask32,
   (digest.2.2.2 + st.2.2.2) &&& mask32)

def hexDigit (n : Nat) : Char :=
  if n < 10 then Char.ofNat (48 + n) else Char.ofNat (87 + n)

/-- Render one byte as two lowercase hex digits. -/
def byteHex (b : Nat) : List Char := [hexDigit (b / 16), hexDigit (b % 16)]

/-- Render a 32-bit word as 4 little-endian bytes in hex. -/
def wordHexLE (w : Nat) : List Char :=
  byteHex (w &&& 255) ++ byteHex ((w >>> 8) &&& 255) ++
  byteHex ((w >>> 16) &&& 255) ++ byteHex ((w >>> 24) &&& 255)

/-- MD5 hex digest of a byte message. -/
def md5hex (msg : List Nat) : String :=
  let blocks := chunksOfLen 64 (md5pad msg)
  let d := blocks.foldl md5block (1732584193, 4023233417, 2562383102, 271733878)
  String.mk (wordHexLE d.1 ++ wordHexLE d.2.1 ++ wordHexLE d.2.2.1 ++ wordHexLE d.2.2.2)

/-- ASCII bytes of a string; agrees with UTF-8 `encode` on the ASCII paths
    handled here. -/
def strBytes (s : String) : List Nat := s.data.map Char.toNat

def md5hexStr (s : String) : String := md5hex (strBytes s)

/-! ## String primitives over the character list

These mirror the Python string operations used by the source.  They work on
`String.data` directly rather than through `Substring`, so the kernel can
evaluate them on concrete inputs. -/

def startsWithList : List Char → List Char → Bool
  | _, [] => true
  | [], _ :: _ => false
  | a :: as, b :: bs => a == b && startsWithList as bs

def strStartsWith (s pre : String) : Bool := startsWithList s.data pre.data

def strEndsWith (s suf : String) : Bool :=
  startsWithList s.data.reverse suf.data.reverse

/-- Python `s[:-n]`. -/
def strDropRight (s : String) (n : Nat) : String :=
  String.mk (s.data.take (s.data.length - n))

def toLowerStr (s : String) : String := String.mk (s.data.map Char.toLower)

/-- Split on every non-overlapping occurrence of a nonempty separator
    (Python `str.split(sep)`), on character lists with explicit fuel. -/
def splitOnAux (sep : List Char) : Nat → List Char → List Char → List (List Char)
  | 0, acc, _ => [acc.reverse]
  | _ + 1, acc, [] => [acc.reverse]
  | fuel + 1, acc, c :: rest =>
    if startsWithList (c :: rest) sep then
      acc.reverse :: splitOnAux sep fuel [] ((c :: rest).drop sep.length)
    else splitOnAux sep fuel (c :: acc) rest

def splitStr (s sep : String) : List String :=
  if sep.data.isEmpty then [s]
  else (splitOnAux sep.data (s.data.length + 1) [] s.data).map String.mk

/-! ## Path model

Paths are strings.  `resolve` models `Path.resolve` for dot-free,
symlink-free paths: an absolute path resolves to itself, a relative path is
anchored at the working directory.  `relTo` models
`resolve().relative_to(Path.cwd().resolve())`. -/

def resolve (cwd p : String) : String :=
  if strStartsWith p "/" then p else cwd ++ "/" ++ p

def relTo (cwd abs : String) : String :=
  String.mk (abs.data.drop (cwd.length + 1))

/-- The file name (`Path.name`): the last `/`-separated component. -/
def nameOf (p : String) : String := (splitStr p "/").getLastD ""

/-- The extension (`Path.suffix`): `"." ++` the part after the last dot,
    empty for a name without a dot or a pure dot-file such as `.bashrc`. -/
def extOf (name : String) : String :=
  match splitStr name "." with
  | [] => ""
  | [_] => ""
  | s :: rest =>
    if s = "" && rest.length = 1 then "" else "." ++ (s :: rest).getLastD ""

/-- Substring containment test (Python `in` on strings). -/
def containsSub (s pat : String) : Bool := (splitStr s pat).length > 1

/-! ## Data model: chunks, metadata, fingerprint-cache entries -/

/-- A fingerprint-cache entry (`cache["files"][key]`); `hash` is `none` when
    the `"hash"` key is missing or empty (hashing failed / file not small). -/
structure CacheEntry where
  mtime : Nat
  size : Nat
  hash : Option String
  processedAt : Nat
deriving DecidableEq, Repr

/-- Chunk metadata as built by `process_file`.  The `path_level_i` dict keys
    are contiguous from 0 as created by `_extract_path_metadata`, so they are
    embedded as the list `levels`; a `dict.update` with `m` new levels maps to
    `newLevels ++ levels.drop m` (stale deeper levels survive, as in the
    source). -/
structure Meta where
  source : String
  filename : String
  chunkIndex : Nat
  fileType : String
  category : String
  pathDepth : Nat
  parentDir : String
  pathAncestors : String
  levels : List String
deriving DecidableEq, Repr

structure Chunk where
  id : String
  doc : String
  meta : Meta
deriving DecidableEq, Repr

/-- The content store: the chunk collection, a list of id-keyed records. -/
abbrev Store := List Chunk

/-- `collection.get(where source = src)`: all chunks for one source path. -/
def getBySource (s : Store) (src : String) : List Chunk :=
  s.filter (fun c => c.meta.source == src)

/-- `collection.delete(ids = ids)`. -/
def deleteIds (s : Store) (ids : List String) : Store :=
  s.filter (fun c => !(ids.contains c.id))

/-- `collection.upsert` of one record: replace the record with this id if
    present, insert at the end otherwise. -/
def upsertOne (s : Store) (c : Chunk) : Store :=
  if s.any (fun d => d.id == c.id) then
    s.map (fun d => if d.id == c.id then c else d)
  else s ++ [c]

/-- `collection.upsert(ids, documents, metadatas)` over a list of records. -/
def upsert (s : Store) (cs : List Chunk) : Store := cs.foldl upsertOne s

/-! ## Association lists for the watcher dictionaries -/

def lookupKey {α : Type} (m : List (String × α)) (k : String) : Option α :=
  (m.find? (fun e => e.1 == k)).map (·.2)

def setKey {α : Type} (m : List (String × α)) (k : String) (v : α) :
    List (String × α) :=
  if m.any (fun e => e.1 == k) then
    m.map (fun e => if e.1 == k then (k, v) else e)
  else m ++ [(k, v)]

def removeKey {α : Type} (m : List (String × α)) (k : String) :
    List (String × α) :=
  m.filter (fun e => !(e.1 == k))

/-! ## `chunk_text` (DocumentIngester.chunk_text, lines 583-603)

Text is embedded as `List Char`.  The inner `while` that backtracks to a
sentence boundary is `seekBoundary`; the outer `while start < len(text)`
loop runs on explicit fuel and returns `none` when the fuel is exhausted, so
termination of the source loop is the statement that enough fuel exists. -/

def isBoundary (c : Char) : Bool := c == '.' || c == '!' || c == '?' || c == '\n'

/-- `while end > start + chunk_size // 2 and text[end] not in ".!?\n": end -= 1`
    with `lim = start + chunk_size // 2`; returns the final `end`. -/
def seekBoundary (text : List Char) (lim : Nat) : Nat → Nat
  | 0 => 0
  | e + 1 =>
    if e + 1 > lim && !isBoundary (text.getD (e + 1) ' ') then
      seekBoundary text lim e
    else e + 1

/-- The body of `chunk_text`'s outer loop: state is the chunk start position
    and the accumulated chunks. -/
def chunkLoop (text : List Char) (csize overlap : Nat) :
    Nat → Nat → List (List Char) → Option (List (List Char))
  | 0, _, _ => none
  | fuel + 1, start, acc =>
    if start < text.length then
      let e := start + csize
      if e ≥ text.length then some (acc ++ [text.drop start])
      else
        let e2 := seekBoundary text (start + csize / 2) e
        chunkLoop text csize overlap fuel (e2 - overlap)
          (acc ++ [(text.take e2).drop start])
    else some acc

/-- `chunk_text(text, chunk_size, overlap)`; `none` means the loop ran past
    `text.length + 1` iterations (which a terminating run never does, see the
    termination theorem). -/
def chunk_text (text : List Char) (csize overlap : Nat) :
    Option (List (List Char)) :=
  if text.length ≤ csize then some [text]
  else chunkLoop text csize overlap (text.length + 1) 0 []

/-- `chunk_text` with the source's default parameters (1000, 100), for which
    the termination theorem shows the fallback branch is dead. -/
def chunkTextRun (text : List Char) : List (List Char) :=
  (chunk_text text 1000 100).getD [text]

/-! ## Document construction (`process_file`, lines 704-723) -/

/-- `_categorize_file`: path-substring heuristics over the lowercase path. -/
def categorizeFile (p : String) : String :=
  let s := toLowerStr p
  if containsSub s "strategy" then "strategy"
  else if containsSub s "lyrics" || containsSub s "analysis" then "content"
  else if containsSub s "references" || containsSub s "resources" then "reference"
  else if containsSub s "disorganized" then "planning"
  else "general"

/-- The directory components of a path (`relative_path.parts[:-1]`). -/
def dirParts (cwd p : String) : List String :=
  (splitStr (relTo cwd (resolve cwd p)) "/").dropLast

/-- `path_ancestors_str`: comma-joined `/`-prefixes of the directory parts. -/
def ancestorsStr (dirs : List String) : String :=
  String.intercalate ","
    ((List.range dirs.length).map (fun i => String.intercalate "/" (dirs.take (i + 1))))

/-- `_extract_path_metadata` merged into an existing metadata record, as
    `dict.update` does in `move_file_in_database`: fixed keys are replaced
    and `path_level_i` keys are overwritten for `i` below the new depth,
    deeper stale levels surviving. -/
def updatePathMeta (m : Meta) (cwd p : String) : Meta :=
  let dirs := dirParts cwd p
  { m with
    pathDepth := dirs.length
    parentDir := dirs.getLastD ""
    pathAncestors := ancestorsStr dirs
    levels := dirs ++ m.levels.drop dirs.length }

/-- The chunk id of `process_file`:
    `hashlib.md5(f"{file_path}_{i}".encode()).hexdigest()`.
    Note the hash input is the path exactly as spelled by the caller, not the
    resolved project-relative source path. -/
def docId (rawPath : String) (i : Nat) : String :=
  md5hexStr (rawPath ++ "_" ++ toString i)

/-- The metadata `process_file` attaches to chunk `i` of `rawPath`. -/
def mkMeta (cwd rawPath : String) (i : Nat) : Meta :=
  let dirs := dirParts cwd rawPath
  { source := relTo cwd (resolve cwd rawPath)
    filename := nameOf rawPath
    chunkIndex := i
    fileType := toLowerStr (extOf (nameOf rawPath))
    category := categorizeFile rawPath
    pathDepth := dirs.length
    parentDir := dirs.getLastD ""
    pathAncestors := ancestorsStr dirs
    levels := dirs }

/-- The documents list `process_file` builds from extracted content. -/
def mkDocuments (cwd rawPath : String) (content : List Char) : List Chunk :=
  (chunkTextRun content).mapIdx (fun i piece =>
    { id := docId rawPath i, doc := String.mk piece, meta := mkMeta cwd rawPath i })

/-! ## `should_process_file` (lines 169-215) -/

/-- One MiB, the size threshold below which the content hash is checked. -/
def mib : Nat := 1048576

/-- `should_process_file`, with the file's current observable state passed
    in: `present` (`file_path.exists()`), `mtime`/`size` (`stat`), `hashNow`
    (what `_get_file_hash` would return, `none` for the falsy empty string)
    and the fingerprint-cache entry for the resolved key. -/
def should_process_file (present : Bool) (mtime size : Nat)
    (hashNow : Option String) (entry : Option CacheEntry) : Bool :=
  if !present then false
  else
    match entry with
    | none => true
    | some e =>
      if e.mtime != mtime || e.size != size then true
      else if size < mib then
        match hashNow, e.hash with
        | some h, some hc => h != hc
        | _, _ => false
      else false

/-- The claim's phrasing of `should_process_file`, written independently from
    the spec sentence for comparison: process iff the path exists and (no
    cache entry, or mtime/size differ, or — below 1 MiB — the content hash
    differs from the cached hash, both being available). -/
def shouldProcessSpec (present : Bool) (mtime size : Nat)
    (hashNow : Option String) (entry : Option CacheEntry) : Prop :=
  present = true ∧
    (entry = none ∨
      (∃ e, entry = some e ∧
        (e.mtime ≠ mtime ∨ e.size ≠ size ∨
          (size < mib ∧ ∃ h hc, hashNow = some h ∧ e.hash = some hc ∧ h ≠ hc))))

/-! ## Move detection (`_detect_file_move`, lines 1512-1585)

Inputs of the scan: the creation time `now`, the created path's observable
state (name, extension, hash when computable, size when the file exists),
the watcher's `file_hashes` and the ingester's fingerprint cache, and the
`pending_deletions` dictionary as an association list in insertion order. -/

/-- The match score of one pending deletion `delPath` against the created
    file: +100 identical content hash, +50 identical filename, +20 identical
    extension, +30 identical cached size. -/
def moveScore (createdName createdExt : String) (createdHash : Option String)
    (createdSize : Option Nat) (fileHashes : List (String × String))
    (cache : List (String × CacheEntry)) (delPath : String) : Nat :=
  let hashPts :=
    match createdHash, lookupKey fileHashes delPath with
    | some h, some hd => if h == hd then 100 else 0
    | _, _ => 0
  let namePts := if nameOf delPath == createdName then 50 else 0
  let extPts := if extOf (nameOf delPath) == createdExt then 20 else 0
  let sizePts :=
    match createdSize, lookupKey cache delPath with
    | some sz, some e => if e.size == sz then 30 else 0
    | _, _ => 0
  hashPts + namePts + extPts + sizePts

/-- A scored candidate: deleted path, deletion time, match score. -/
abbrev MoveCand := String × Nat × Nat

/-- Head of the list sorted descending by `(score, deletion time)` with the
    stable tie-break of `list.sort(reverse=True)`: the first entry whose key
    no later entry strictly exceeds. -/
def moveCandStep (best nxt : MoveCand) : MoveCand :=
  if nxt.2.2 > best.2.2 || (nxt.2.2 == best.2.2 && nxt.2.1 > best.2.1) then nxt
  else best

def bestCand : List MoveCand → Option MoveCand
  | [] => none
  | c :: cs => some (cs.foldl moveCandStep c)

/-- The qualifying candidates: pending deletions inside the move-detection
    window whose score reaches the minimum of 50. -/
def moveCands (now window : Nat) (createdName createdExt : String)
    (createdHash : Option String) (createdSize : Option Nat)
    (fileHashes : List (String × String)) (cache : List (String × CacheEntry))
    (pendings : List (String × Nat)) : List MoveCand :=
  (pendings.filterMap (fun e =>
      if now - e.2 ≤ window then
        some (e.1, e.2,
          moveScore createdName createdExt createdHash createdSize fileHashes
            cache e.1)
      else none)).filter (fun c => c.2.2 ≥ 50)

/-- `_detect_file_move`: the best qualifying pending deletion, or `none`. -/
def detect_file_move (now window : Nat) (createdName createdExt : String)
    (createdHash : Option String) (createdSize : Option Nat)
    (fileHashes : List (String × String)) (cache : List (String × CacheEntry))
    (pendings : List (String × Nat)) : Option String :=
  (bestCand (moveCands now window createdName createdExt createdHash
      createdSize fileHashes cache pendings)).map (·.1)

/-! ## `move_file_in_database` (lines 336-391) -/

/-- The metadata rewrite applied to each chunk of the moved file: set
    `source` and `filename` for the new path, then `dict.update` with
    `_extract_path_metadata(new_path)`. -/
def movedMeta (m : Meta) (cwd newPath : String) : Meta :=
  updatePathMeta
    { m with source := relTo cwd (resolve cwd newPath), filename := nameOf newPath }
    cwd newPath

/-- `move_file_in_database(old_path, new_path)`: rewrites the old path's
    chunks' path metadata and upserts them under their existing ids, then
    relocates the fingerprint-cache entry (copy under the new resolved key,
    delete the old key).  Returns the success flag with the new store and
    cache; `(false, store, cache)` when no chunks existed. -/
def move_file_in_database (cwd : String) (store : Store)
    (cache : List (String × CacheEntry)) (oldPath newPath : String) :
    Bool × Store × List (String × CacheEntry) :=
  let oldRel := relTo cwd (resolve cwd oldPath)
  let existing := getBySource store oldRel
  if existing.isEmpty then (false, store, cache)
  else
    let updated := existing.map (fun c => { c with meta := movedMeta c.meta cwd newPath })
    let store2 := upsert store updated
    let oldKey := resolve cwd oldPath
    let newKey := resolve cwd newPath
    let cache2 :=
      match lookupKey cache oldKey with
      | some e => removeKey (setKey cache newKey e) oldKey
      | none => cache
    (true, store2, cache2)

/-! ## Transactional replace with failure injection
(`process_file` lines 729-750 together with `_debounced_process_file`
lines 1780-1857)

The store calls are atomic (spec section 5: single upsert/delete calls are
assumed atomic), so an injected failure leaves the store call without
effect and raises.  `FailAt` selects which store mutation of the replace
fails: the delete of the backed-up chunks inside `process_file`, or the
upsert of the new chunks in the debounced handler.  The run returns the
final store, the in-memory and on-disk fingerprint caches, the errors the
handlers reported (`console` error output and `failed_files` records), and
the trace of performed operations in order. -/

inductive FailAt where
  | noFail
  | atDelete
  | atUpsert
deriving DecidableEq, Repr

inductive RepErr where
  | deleteFailed
  | upsertFailed
deriving DecidableEq, Repr

inductive ReplaceOp where
  | backupRead (src : String)
  | deleteOp (ids : List String)
  | cacheEntryUpdate (key : String)
  | upsertOp (ids : List String)
  | cacheSave
  | restoreOp (ids : List String)
deriving DecidableEq, Repr

structure ReplaceResult where
  store : Store
  cacheMem : List (String × CacheEntry)
  cacheDisk : List (String × CacheEntry)
  errors : List RepErr
  trace : List ReplaceOp
deriving Repr

/-- The debounced re-index of one changed file: backup, `process_file`
    (which backs up again, deletes the old chunks, updates the in-memory
    cache entry and returns the new documents), upsert of the new documents,
    cache save; with the rollback paths of both layers.  `entry` is the
    fingerprint entry `_update_file_cache` would record and `docs` the
    documents extraction produced (nonempty content). -/
def debounced_replace (cwd rawPath : String) (store : Store)
    (cacheMem cacheDisk : List (String × CacheEntry)) (entry : CacheEntry)
    (docs : List Chunk) (fail : FailAt) : ReplaceResult :=
  let src := relTo cwd (resolve cwd rawPath)
  let key := resolve cwd rawPath
  let backup := getBySource store src
  let ids := backup.map (·.id)
  -- _debounced_process_file line 1781: outer backup, then process_file:
  -- line 730: inner backup (the store is unchanged in between, same value).
  let trace0 := [ReplaceOp.backupRead src, ReplaceOp.backupRead src]
  if backup.isEmpty then
    -- no old chunks: process_file skips the delete, updates the cache entry
    -- and returns the documents; the handler upserts them and saves.
    if fail = FailAt.atUpsert then
      { store := store, cacheMem := setKey cacheMem key entry
        cacheDisk := cacheDisk, errors := [RepErr.upsertFailed]
        trace := trace0 ++ [ReplaceOp.cacheEntryUpdate key] }
    else
      { store := upsert store docs, cacheMem := setKey cacheMem key entry
        cacheDisk := setKey cacheMem key entry
        errors := []
        trace := trace0 ++ [ReplaceOp.cacheEntryUpdate key,
          ReplaceOp.upsertOp (docs.map (·.id)), ReplaceOp.cacheSave] }
  else
    match fail with
    | FailAt.atDelete =>
      -- collection.delete raises: the atomic call leaves the store as is;
      -- process_file restores the backup (an upsert of records that are all
      -- still present) and re-raises; its outer handler records the error
      -- and returns no documents, so the debounced handler stops.
      { store := upsert store backup, cacheMem := cacheMem
        cacheDisk := cacheDisk, errors := [RepErr.deleteFailed]
        trace := trace0 ++ [ReplaceOp.restoreOp ids] }
    | FailAt.atUpsert =>
      -- the delete succeeded and process_file updated the in-memory cache;
      -- the handler's upsert of the new documents raises, the rollback
      -- restores the backup, the error is reported, the cache is not saved.
      { store := upsert (deleteIds store ids) backup
        cacheMem := setKey cacheMem key entry
        cacheDisk := cacheDisk, errors := [RepErr.upsertFailed]
        trace := trace0 ++ [ReplaceOp.deleteOp ids,
          ReplaceOp.cacheEntryUpdate key, ReplaceOp.restoreOp ids] }
    | FailAt.noFail =>
      { store := upsert (deleteIds store ids) docs
        cacheMem := setKey cacheMem key entry
        cacheDisk := setKey cacheMem key entry
        errors := []
        trace := trace0 ++ [ReplaceOp.deleteOp ids,
          ReplaceOp.cacheEntryUpdate key,
          ReplaceOp.upsertOp (docs.map (·.id)), ReplaceOp.cacheSave] }

/-! ## The watcher (DocumentWatcher)

Time is in deciseconds so every source constant is a `Nat`: the atomic
operation grace delay 2.0 s is 20, the short post-create delay 0.5 s is 5,
the immediate-processing delay 0.1 s is 1.  The debounce duration is the
constructor parameter `D` (default 5.0 s, i.e. 50).  The filesystem is a
time-indexed view `fs : Nat → String → Option FileView`; watcher paths are
the absolute strings the OS watch layer delivers.  The macOS-temp-directory
and random-temp-name heuristics of `_is_atomic_operation` need a regex
engine and directory globbing; they are abstracted as the oracle
`tempPathHeuristic` (spec section 9 calls their exact thresholds tunable
parameters, not load-bearing semantics). -/

structure FileView where
  data : List Char
  mtime : Nat
deriving DecidableEq, Repr

abbrev FS := Nat → String → Option FileView

def graceDs : Nat := 20
def shortDelayDs : Nat := 5
def immediateDs : Nat := 1
def moveWindowDs : Nat := 100

def supportedExtensions : List String :=
  [".md", ".pdf", ".txt", ".rtf", ".docx", ".html", ".htm",
   ".json", ".xml", ".yaml", ".yml", ".rst", ".tex", ".log", ".csv", ".tsv"]

def excludedPaths : List String := [".git/", "code/"]

/-- `_should_process_file` of the watcher: extension on the allow-list and
    the project-relative path free of excluded markers. -/
def watchEligible (cwd p : String) : Bool :=
  supportedExtensions.contains (toLowerStr (extOf (nameOf p))) &&
    !(excludedPaths.any (fun ex => containsSub (relTo cwd p) ex))

/-- `_get_file_hash` on in-memory content (md5 of the bytes). -/
def hashContent (data : List Char) : String := md5hex (data.map Char.toNat)

/-- The cache entry `_update_file_cache` records at time `t` for a file
    whose current view is `fv`. -/
def mkCacheEntry (t : Nat) (fv : FileView) : CacheEntry :=
  { mtime := fv.mtime, size := fv.data.length
    hash := if fv.data.length < mib then some (hashContent fv.data) else none
    processedAt := t }

structure WatchState where
  pendingFiles : List (String × Nat)
  pendingDeletions : List (String × Nat)
  fileHashes : List (String × String)
  store : Store
  cacheFiles : List (String × CacheEntry)
deriving Repr

/-- The deferred callbacks the watcher schedules. -/
inductive TAct where
  | fileChange (p : String)
  | debounced (p : String)
  | delayedDel (p : String)
deriving DecidableEq, Repr

abbrev TimedAct := Nat × TAct

/-- `_process_file_change`: cancel a pending deletion for this path, stamp
    the last-event time, start a debounce timer. -/
def processFileChange (D t : Nat) (p : String) (s : WatchState) :
    WatchState × List TimedAct :=
  ({ s with
      pendingDeletions := removeKey s.pendingDeletions p
      pendingFiles := setKey s.pendingFiles p t },
   [(t + D, TAct.debounced p)])

/-- `_schedule_delayed_deletion`: record the pending deletion and start the
    grace timer. -/
def scheduleDelayedDeletion (t : Nat) (p : String) (s : WatchState) :
    WatchState × List TimedAct :=
  ({ s with pendingDeletions := setKey s.pendingDeletions p t },
   [(t + graceDs, TAct.delayedDel p)])

/-- The body of `_debounced_process_file` past the staleness check: skip a
    vanished file, otherwise back up, re-extract (`process_file` with
    `force=True`), delete the old chunks, update the in-memory cache entry,
    upsert the new documents; always drop the pending-files entry. -/
def debouncedRun (cwd : String) (fs : FS) (t : Nat) (p : String)
    (s : WatchState) : WatchState × List TimedAct :=
  match fs t p with
  | none => ({ s with pendingFiles := removeKey s.pendingFiles p }, [])
  | some fv =>
    if fv.data.isEmpty then
      -- process_file: empty content after extraction, no documents and no
      -- store mutation; the handler then has nothing to upsert.
      ({ s with pendingFiles := removeKey s.pendingFiles p }, [])
    else
      let src := relTo cwd (resolve cwd p)
      let backup := getBySource s.store src
      let docs := mkDocuments cwd p fv.data
      ({ s with
          store := upsert (deleteIds s.store (backup.map (·.id))) docs
          cacheFiles := setKey s.cacheFiles (resolve cwd p) (mkCacheEntry t fv)
          pendingFiles := removeKey s.pendingFiles p },
       [])

/-- `_debounced_process_file`: discard a stale firing (the recorded
    last-event time is more recent than this firing's schedule), else run. -/
def debouncedProcess (D : Nat) (cwd : String) (fs : FS) (t : Nat) (p : String)
    (s : WatchState) : WatchState × List TimedAct :=
  match lookupKey s.pendingFiles p with
  | some last => if t - last < D then (s, []) else debouncedRun cwd fs t p s
  | none => debouncedRun cwd fs t p s

/-- `_process_delayed_deletion`: only act if the deletion is still pending,
    the grace period has elapsed and the file is re-checked as absent; a
    recreated file turns into a modification instead. -/
def delayedDeletion (D : Nat) (cwd : String) (fs : FS) (t : Nat) (p : String)
    (s : WatchState) : WatchState × List TimedAct :=
  match lookupKey s.pendingDeletions p with
  | none => (s, [])
  | some dt =>
    if t - dt < graceDs then (s, [])
    else
      match fs t p with
      | some _ =>
        processFileChange D t p
          { s with pendingDeletions := removeKey s.pendingDeletions p }
      | none =>
        let src := relTo cwd (resolve cwd p)
        let backup := getBySource s.store src
        ({ s with
            store := deleteIds s.store (backup.map (·.id))
            cacheFiles := removeKey s.cacheFiles (resolve cwd p)
            fileHashes := removeKey s.fileHashes p
            pendingDeletions := removeKey s.pendingDeletions p },
         [])

/-- `on_deleted`: never act immediately, schedule the delayed deletion. -/
def onDeleted (cwd : String) (t : Nat) (p : String) (s : WatchState) :
    WatchState × List TimedAct :=
  if watchEligible cwd p then scheduleDelayedDeletion t p s else (s, [])

/-- The path with its final component replaced by `name`. -/
def siblingPath (p name : String) : String :=
  String.intercalate "/" ((splitStr p "/").dropLast ++ [name])

/-- `_is_atomic_operation` minus the regex/glob heuristics, which are the
    oracle `tempPathHeuristic`: pending deletion for the path, editor temp
    suffixes, embedded temp markers, hidden tmp names, or a temp-suffixed
    name whose original currently exists. -/
def isAtomicOperation (tempPathHeuristic : String → Bool) (fsNow : String → Option FileView)
    (pendingDeletions : List (String × Nat)) (p : String) : Bool :=
  let name := nameOf p
  let tempSuffixes := [".tmp", ".temp", "~", ".bak", ".swp", ".swo", ".orig"]
  (lookupKey pendingDeletions p).isSome ||
  tempSuffixes.any (fun pat => strEndsWith name pat) ||
  [".tmp.", ".temp.", ".bak."].any (fun pat => containsSub name pat) ||
  tempPathHeuristic p ||
  (strStartsWith name "." && (strEndsWith name ".tmp" || containsSub name "tmp")) ||
  tempSuffixes.any (fun pat =>
    strEndsWith name pat &&
      (fsNow (siblingPath p (strDropRight name pat.length))).isSome)

/-- `_should_process_immediately`: not an atomic-operation artifact, outside
    temp locations, a plain user-file name, inside the project and not
    excluded. -/
def shouldProcessImmediately (tempPathHeuristic : String → Bool)
    (fsNow : String → Option FileView) (cwd : String)
    (pendingDeletions : List (String × Nat)) (p : String) : Bool :=
  let name := nameOf p
  if isAtomicOperation tempPathHeuristic fsNow pendingDeletions p then false
  else
    (!(containsSub p "/var/folders/") && !(containsSub p "TemporaryItems")) &&
    (!([ "~", ".tmp", ".temp", ".bak"].any (fun pat => containsSub name pat))) &&
    (name.length < 50 && !(strStartsWith name ".") &&
      supportedExtensions.contains (extOf name)) &&
    !(excludedPaths.any (fun ex => containsSub (relTo cwd p) ex))

/-- `on_modified`: skip ineligible paths and atomic-operation artifacts,
    then only treat the event as a change when the content hash moved
    (which updates the hash tracking). -/
def onModified (D : Nat) (tempPathHeuristic : String → Bool) (cwd : String)
    (fs : FS) (t : Nat) (p : String) (s : WatchState) :
    WatchState × List TimedAct :=
  if watchEligible cwd p then
    if isAtomicOperation tempPathHeuristic (fs t) s.pendingDeletions p then (s, [])
    else
      match fs t p with
      | none => (s, [])
      | some fv =>
        let h := hashContent fv.data
        if lookupKey s.fileHashes p == some h then (s, [])
        else processFileChange D t p { s with fileHashes := setKey s.fileHashes p h }
  else (s, [])

/-- `_process_file_move`: cancel bookkeeping for both endpoints, re-check the
    destination, move the chunks in the database and refresh hash tracking;
    fall back to deletion or plain reprocessing when something is off. -/
def processFileMove (D : Nat) (cwd : String) (fs : FS) (t : Nat)
    (oldP newP : String) (s : WatchState) : WatchState × List TimedAct :=
  let s1 :=
    { s with
        pendingDeletions := removeKey s.pendingDeletions oldP
        pendingFiles := removeKey (removeKey s.pendingFiles oldP) newP }
  match fs t newP with
  | none => scheduleDelayedDeletion t oldP s1
  | some fv =>
    let r := move_file_in_database cwd s1.store s1.cacheFiles oldP newP
    if r.1 then
      let hashes1 :=
        match lookupKey s1.fileHashes oldP with
        | some h => setKey (removeKey s1.fileHashes oldP) newP h
        | none => s1.fileHashes
      ({ s1 with
          store := r.2.1, cacheFiles := r.2.2
          fileHashes := setKey hashes1 newP (hashContent fv.data) },
       [])
    else
      processFileChange D t newP
        { s1 with fileHashes := removeKey s1.fileHashes oldP }

/-- `on_created`: a creation for a path with an active pending deletion is a
    detected atomic rewrite — cancel the deletion and hand the path to
    `_process_file_change` after the short fixed 0.5 s delay; otherwise try
    move detection, then immediate processing, then the modification path. -/
def onCreated (D : Nat) (tempPathHeuristic : String → Bool) (cwd : String)
    (fs : FS) (t : Nat) (p : String) (s : WatchState) :
    WatchState × List TimedAct :=
  if watchEligible cwd p then
    if (lookupKey s.pendingDeletions p).isSome then
      ({ s with pendingDeletions := removeKey s.pendingDeletions p },
       [(t + shortDelayDs, TAct.fileChange p)])
    else
      match detect_file_move t moveWindowDs (nameOf p) (extOf (nameOf p))
          ((fs t p).map (fun fv => hashContent fv.data))
          ((fs t p).map (fun fv => fv.data.length))
          s.fileHashes s.cacheFiles s.pendingDeletions with
      | some src => processFileMove D cwd fs t src p s
      | none =>
        if shouldProcessImmediately tempPathHeuristic (fs t) cwd
            s.pendingDeletions p then
          (s, [(t + immediateDs, TAct.fileChange p)])
        else onModified D tempPathHeuristic cwd fs t p s
  else (s, [])

/-! ## The timer runtime

Deferred callbacks run in schedule-time order (the runtime's timer
facility); a callback scheduled while another is due keeps FIFO order on
equal times.  `runQueue` executes the queue with explicit fuel. -/

def insertTimed (tk : TimedAct) : List TimedAct → List TimedAct
  | [] => [tk]
  | h :: rest => if tk.1 < h.1 then tk :: h :: rest else h :: insertTimed tk rest

def execTask (D : Nat) (cwd : String) (fs : FS) (tk : TimedAct)
    (s : WatchState) : WatchState × List TimedAct :=
  match tk.2 with
  | TAct.fileChange p => processFileChange D tk.1 p s
  | TAct.debounced p => debouncedProcess D cwd fs tk.1 p s
  | TAct.delayedDel p => delayedDeletion D cwd fs tk.1 p s

def runQueue (D : Nat) (cwd : String) (fs : FS) :
    Nat → List TimedAct → WatchState → WatchState
  | 0, _, s => s
  | _ + 1, [], s => s
  | fuel + 1, tk :: rest, s =>
    let r := execTask D cwd fs tk s
    runQueue D cwd fs fuel (r.2.foldl (fun q n => insertTimed n q) rest) r.1

/-! ## Debounce coalescing (C4)

A burst of modification events on one path: each event at time `t` runs
`_process_file_change`, overwriting `pending_files[path] := t` (the repeated
dict assignment is `pendingStampAfter`) and scheduling a firing at `t + D`.
A firing at `now` reads the recorded stamp — the last event not after `now`
— and discards itself when `now - stamp < D`. -/

/-- The value of `pending_files[path]` after the assignments for a sequence
    of events (each event overwrites the stamp). -/
def pendingStampAfter (ts : List Nat) : Option Nat :=
  ts.foldl (fun _ t => some t) none

/-- The stamp the firing at time `now` observes: the events delivered so far
    are those with time `≤ now`. -/
def stampAt (ts : List Nat) (now : Nat) : Option Nat :=
  pendingStampAfter (ts.filter (fun u => decide (u ≤ now)))

/-- Whether the firing scheduled by event `i` (at `ts[i] + D`) passes the
    staleness check of `_debounced_process_file` and performs work. -/
def debouncedExecutes (D : Nat) (ts : List Nat) (i : Nat) : Bool :=
  match stampAt ts (ts.getD i 0 + D) with
  | some last => !(ts.getD i 0 + D - last < D)
  | none => true

/-! ## Association-list and store lemmas -/

theorem find_setMap_self {α : Type} (m : List (String × α)) (k : String) (v : α)
    (hany : m.any (fun e => e.1 == k) = true) :
    (m.map (fun e => if e.1 == k then (k, v) else e)).find? (fun e => e.1 == k)
      = some (k, v) := by
  induction m with
  | nil => simp at hany
  | cons e rest ih =>
    by_cases he : (e.1 == k) = true
    · simp [List.find?, he]
    · simp only [List.any_cons, he, Bool.false_or] at hany
      simp only [List.map_cons, he, if_false, List.find?, ih hany]
      simp [he]

theorem find_noKey {α : Type} (m : List (String × α)) (k : String)
    (hnone : m.any (fun e => e.1 == k) = false) :
    m.find? (fun e => e.1 == k) = none := by
  induction m with
  | nil => simp
  | cons e rest ih =>
    simp only [List.any_cons, Bool.or_eq_false_iff] at hnone
    simp only [List.find?, hnone.1, ih hnone.2]

theorem lookup_setKey_self {α : Type} (m : List (String × α)) (k : String) (v : α) :
    lookupKey (setKey m k v) k = some v := by
  unfold setKey lookupKey
  by_cases hany : m.any (fun e => e.1 == k) = true
  · rw [if_pos hany, find_setMap_self m k v hany]
    rfl
  · rw [if_neg hany, List.find?_append,
      find_noKey m k (Bool.not_eq_true _ ▸ hany)]
    simp [List.find?]

theorem find_setMap_ne {α : Type} (m : List (String × α)) (k k' : String)
    (v : α) (h : k' ≠ k) :
    (m.map (fun e => if e.1 == k then (k, v) else e)).find? (fun e => e.1 == k')
      = m.find? (fun e => e.1 == k') := by
  induction m with
  | nil => rfl
  | cons e rest ih =>
    by_cases he : (e.1 == k) = true
    · have he1 : e.1 = k := by simpa using he
      have hk : (k == k') = false := by simpa using (Ne.symm h)
      have hek' : (e.1 == k') = false := by rw [he1]; exact hk
      rw [List.map_cons, if_pos he, List.find?_cons, List.find?_cons]
      simp only [hk, hek', ih]
    · rw [List.map_cons, if_neg he, List.find?_cons, List.find?_cons]
      cases hk' : (e.1 == k') with
      | true => rfl
      | false => exact ih

theorem lookup_setKey_ne {α : Type} (m : List (String × α)) (k k' : String)
    (v : α) (h : k' ≠ k) : lookupKey (setKey m k v) k' = lookupKey m k' := by
  unfold setKey lookupKey
  by_cases hany : m.any (fun e => e.1 == k) = true
  · rw [if_pos hany, find_setMap_ne m k k' v h]
  · rw [if_neg hany, List.find?_append]
    have h2 : List.find? (fun e => e.1 == k') [(k, v)] = none := by
      have : (k == k') = false := by simpa using (Ne.symm h)
      simp [List.find?, this]
    rw [h2]
    cases List.find? (fun e => e.1 == k') m <;> rfl

theorem lookup_removeKey_self {α : Type} (m : List (String × α)) (k : String) :
    lookupKey (removeKey m k) k = none := by
  unfold removeKey lookupKey
  induction m with
  | nil => simp
  | cons e rest ih =>
    by_cases he : (e.1 == k) = true
    · simp only [List.filter_cons, he, Bool.not_true, if_false]
      exact ih
    · simp only [List.filter_cons, he, Bool.not_false, if_true, List.find?, he]
      exact ih

theorem lookup_removeKey_ne {α : Type} (m : List (String × α)) (k k' : String)
    (h : k' ≠ k) : lookupKey (removeKey m k) k' = lookupKey m k' := by
  unfold removeKey lookupKey
  induction m with
  | nil => simp
  | cons e rest ih =>
    by_cases he : (e.1 == k) = true
    · have he1 : e.1 = k := by simpa using he
      have hne : (e.1 == k') = false := by
        simp [he1]
        exact Ne.symm h
      simp only [List.filter_cons, he, Bool.not_true, if_false, List.find?, hne]
      simpa using ih
    · simp only [List.filter_cons, he, Bool.not_false, if_true, List.find?]
      by_cases he' : (e.1 == k') = true
      · simp [he']
      · simp only [he']
        simpa using ih

/-! ## Store lemmas -/

theorem getBySource_append (s t : Store) (src : String) :
    getBySource (s ++ t) src = getBySource s src ++ getBySource t src := by
  unfold getBySource
  exact List.filter_append _ _

theorem getBySource_idem (s : Store) (src : String) :
    getBySource (getBySource s src) src = getBySource s src := by
  unfold getBySource
  apply List.filter_eq_self.2
  intro c hc
  exact (List.mem_filter.1 hc).2

theorem source_of_mem_getBySource {s : Store} {src : String} {c : Chunk}
    (h : c ∈ getBySource s src) : c.meta.source = src := by
  have := (List.mem_filter.1 h).2
  simpa using this

theorem mem_of_mem_getBySource {s : Store} {src : String} {c : Chunk}
    (h : c ∈ getBySource s src) : c ∈ s :=
  (List.mem_filter.1 h).1

theorem mem_getBySource {s : Store} {src : String} {c : Chunk}
    (hc : c ∈ s) (hsrc : c.meta.source = src) : c ∈ getBySource s src := by
  exact List.mem_filter.2 ⟨hc, by simpa using hsrc⟩

/-- Deleting exactly the ids of the chunks stored under `src` leaves no
    chunk under `src`, whatever other chunks the store holds. -/
theorem getBySource_deleteIds_self (s : Store) (src : String) :
    getBySource (deleteIds s ((getBySource s src).map (·.id))) src = [] := by
  unfold deleteIds
  rw [List.eq_nil_iff_forall_not_mem]
  intro c hc
  have h1 := List.mem_filter.1 (mem_of_mem_getBySource hc)
  have hsrc := source_of_mem_getBySource hc
  have hmem : c ∈ getBySource s src := mem_getBySource h1.1 hsrc
  have : c.id ∈ (getBySource s src).map (·.id) := List.mem_map_of_mem _ hmem
  have h2 : c.id ∉ (getBySource s src).map (·.id) := by
    have := h1.2
    simp only [Bool.not_eq_true'] at this
    simpa using this
  exact h2 this

/-- Chunks whose ids were not deleted and whose source differs keep the
    deleted store free of `src`-chunks beyond the fresh inserts. -/
theorem getBySource_deleteIds_other (s : Store) (ids : List String)
    (src : String) :
    getBySource (deleteIds s ids) src = deleteIds (getBySource s src) ids := by
  unfold deleteIds getBySource
  rw [List.filter_filter, List.filter_filter]
  apply List.filter_congr
  intro c _
  exact Bool.and_comm _ _

theorem id_inj_of_nodup {s : Store} (hnd : (s.map (·.id)).Nodup) {a b : Chunk}
    (ha : a ∈ s) (hb : b ∈ s) (h : a.id = b.id) : a = b :=
  List.inj_on_of_nodup_map hnd ha hb h

/-- Upserting records none of whose ids occur in the store appends them. -/
theorem upsert_fresh (s : Store) (cs : List Chunk)
    (hfresh : ∀ c ∈ cs, ∀ d ∈ s, d.id ≠ c.id)
    (hnd : (cs.map (·.id)).Nodup) : upsert s cs = s ++ cs := by
  induction cs generalizing s with
  | nil => simp [upsert]
  | cons c rest ih =>
    have hany : s.any (fun d => d.id == c.id) = false := by
      rw [Bool.eq_false_iff]
      intro hx
      obtain ⟨d, hd, he⟩ := List.any_eq_true.1 hx
      exact hfresh c (by simp) d hd (by simpa using he)
    have h1 : upsertOne s c = s ++ [c] := by
      unfold upsertOne
      rw [hany]
      simp
    show upsert (upsertOne s c) rest = s ++ c :: rest
    rw [h1]
    have hnd' : (rest.map (·.id)).Nodup := (List.nodup_cons.1 hnd).2
    have hcid : c.id ∉ rest.map (·.id) := (List.nodup_cons.1 hnd).1
    rw [ih (s ++ [c])]
    · simp
    · intro u hu d hd
      rcases List.mem_append.1 hd with hds | hdc
      · exact hfresh u (by simp [hu]) d hds
      · have : d = c := by simpa using hdc
        subst this
        intro he
        exact hcid (he ▸ List.mem_map_of_mem _ hu)
    · exact hnd'

/-- Upserting records that are all already present (by value) in an
    id-unique store is the identity: each in-place replacement writes the
    value already there. -/
theorem upsert_self (s : Store) (cs : List Chunk)
    (hnd : (s.map (·.id)).Nodup) (hsub : ∀ c ∈ cs, c ∈ s) :
    upsert s cs = s := by
  induction cs with
  | nil => rfl
  | cons c rest ih =>
    have hc : c ∈ s := hsub c (by simp)
    have hany : s.any (fun d => d.id == c.id) = true := by
      apply List.any_eq_true.2
      exact ⟨c, hc, by simp⟩
    have h1 : upsertOne s c = s := by
      unfold upsertOne
      rw [hany]
      simp only [if_true]
      have : ∀ d ∈ s, (if d.id == c.id then c else d) = d := by
        intro d hd
        by_cases he : (d.id == c.id) = true
        · have : d = c := id_inj_of_nodup hnd hd hc (by simpa using he)
          rw [if_pos he, this]
        · rw [if_neg he]
      calc s.map (fun d => if d.id == c.id then c else d)
          = s.map id := List.map_congr_left this
        _ = s := List.map_id s
    show upsert (upsertOne s c) rest = s
    rw [h1]
    exact ih (fun u hu => hsub u (by simp [hu]))

/-- Upserting records whose ids are all present in an id-unique store
    rewrites the store in place: each record replaces the chunk that bears
    its id. -/
theorem upsert_inplace (s : Store) (cs : List Chunk)
    (hnd : (s.map (·.id)).Nodup) (hndcs : (cs.map (·.id)).Nodup)
    (hsub : ∀ c ∈ cs, c.id ∈ s.map (·.id)) :
    upsert s cs = s.map (fun d => (cs.find? (fun u => u.id == d.id)).getD d) := by
  induction cs generalizing s with
  | nil => simp [upsert, List.find?]
  | cons c rest ih =>
    have hany : s.any (fun d => d.id == c.id) = true := by
      apply List.any_eq_true.2
      obtain ⟨d, hd, he⟩ := List.mem_map.1 (hsub c (by simp))
      exact ⟨d, hd, by simp [he]⟩
    have h1 : upsertOne s c = s.map (fun d => if d.id == c.id then c else d) := by
      unfold upsertOne
      rw [hany]
      simp
    have hids : (s.map (fun d => if d.id == c.id then c else d)).map (·.id)
        = s.map (·.id) := by
      rw [List.map_map]
      apply List.map_congr_left
      intro d _
      by_cases he : (d.id == c.id) = true
      · have hd : d.id = c.id := by simpa using he
        simp [he, hd]
      · have hd : ¬(d.id = c.id) := by simpa using he
        simp [hd]
    have hcnotin : c.id ∉ rest.map (·.id) := (List.nodup_cons.1 hndcs).1
    show upsert (upsertOne s c) rest = _
    rw [h1, ih]
    · rw [List.map_map]
      apply List.map_congr_left
      intro d _
      simp only [Function.comp_apply]
      by_cases he : (d.id == c.id) = true
      · have hd : d.id = c.id := by simpa using he
        have hpos : (c.id == d.id) = true := by simp [hd]
        rw [if_pos he, List.find?_cons_of_pos rest (show _ = true from hpos)]
        have hrest : rest.find? (fun u => u.id == c.id) = none := by
          rw [List.find?_eq_none]
          intro u hu
          simp only [Bool.not_eq_true]
          cases h2 : (u.id == c.id) with
          | false => rfl
          | true =>
            exact absurd ((by simpa using h2 : u.id = c.id) ▸
              List.mem_map_of_mem (·.id) hu) hcnotin
        rw [hrest]
        rfl
      · have hneg : (c.id == d.id) = false := by
          have : ¬(d.id = c.id) := by simpa using he
          simp [Ne.symm this]
        rw [if_neg he, List.find?_cons_of_neg rest (show ¬_ = true by simp [hneg])]
    · rw [hids]
      exact hnd
    · exact (List.nodup_cons.1 hndcs).2
    · intro u hu
      rw [hids]
      exact hsub u (by simp [hu])

/-! ## Termination lemmas for `chunk_text` (C10) -/

/-- The backtrack loop never returns a position below its floor
    `start + chunk_size / 2`. -/
theorem seekBoundary_ge (text : List Char) (lim : Nat) :
    ∀ e, lim ≤ e → lim ≤ seekBoundary text lim e := by
  intro e
  induction e with
  | zero => intro h; simpa [seekBoundary] using h
  | succ n ih =>
    intro h
    unfold seekBoundary
    split
    · next hc =>
      rw [Bool.and_eq_true] at hc
      have h1 : n + 1 > lim := by simpa using hc.1
      exact ih (by omega)
    · exact h

/-- With `overlap < chunk_size / 2`, each loop iteration advances the start
    by at least one, so fuel beyond the remaining length suffices. -/
theorem chunkLoop_isSome (text : List Char) (csize overlap : Nat)
    (ho : overlap < csize / 2) :
    ∀ fuel start acc, text.length - start < fuel →
      (chunkLoop text csize overlap fuel start acc).isSome = true := by
  intro fuel
  induction fuel with
  | zero => intro start acc h; omega
  | succ n ih =>
    intro start acc h
    unfold chunkLoop
    by_cases hs : start < text.length
    · rw [if_pos hs]
      by_cases he : start + csize ≥ text.length
      · rw [if_pos he]
        rfl
      · rw [if_neg he]
        apply ih
        have h1 : start + csize / 2 ≤ start + csize := by omega
        have h2 := seekBoundary_ge text (start + csize / 2) (start + csize) h1
        omega
    · rw [if_neg hs]
      rfl

/-! ## Claim theorems -/

/-- C10: for every input text and every `chunk_size` and `overlap` with
    `overlap < chunk_size / 2` (integer division, as in the source's
    `chunk_size // 2`; the defaults 1000 and 100 satisfy it), `chunk_text`
    terminates: the sentence-boundary backtrack never moves the chunk end
    below `start + chunk_size / 2`, so every iteration advances the start by
    at least `chunk_size / 2 - overlap ≥ 1`, and the loop completes within
    `length + 1` iterations (`isSome` of the fuelled embedding). -/
theorem chunk_text_terminates (text : List Char) (csize overlap : Nat)
    (ho : overlap < csize / 2) :
    (∀ start, start + csize / 2 ≤
      seekBoundary text (start + csize / 2) (start + csize)) ∧
    (chunk_text text csize overlap).isSome = true := by
  constructor
  · intro start
    exact seekBoundary_ge text _ _ (by omega)
  · unfold chunk_text
    by_cases h : text.length ≤ csize
    · rw [if_pos h]
      rfl
    · rw [if_neg h]
      exact chunkLoop_isSome text csize overlap ho (text.length + 1) 0 [] (by omega)

/-- Witness for C10 at the concrete input `"abcdefghijkl"`, chunk size 5,
    overlap 1. -/
theorem chunk_text_terminates_witness :
    1 < 5 / 2 ∧
    (chunk_text ([ 'a', 'b', 'c', 'd', 'e', 'f', 'g', 'h', 'i', 'j', 'k', 'l' ])
        5 1).isSome = true :=
  ⟨by decide,
   (chunk_text_terminates
      ([ 'a', 'b', 'c', 'd', 'e', 'f', 'g', 'h', 'i', 'j', 'k', 'l' ]) 5 1
      (by decide)).2⟩

/-- C8: `should_process_file` returns true exactly when the path exists and
    either has no fingerprint-cache entry, or its mtime or size differ from
    the cached values, or (below 1 MiB) its content hash differs from the
    cached hash, both hashes being available; in every other case —
    including every non-existent path — it returns false. -/
theorem should_process_file_iff (present : Bool) (mtime size : Nat)
    (hashNow : Option String) (entry : Option CacheEntry) :
    should_process_file present mtime size hashNow entry = true ↔
      shouldProcessSpec present mtime size hashNow entry := by
  cases present with
  | false => simp [should_process_file, shouldProcessSpec]
  | true =>
    cases entry with
    | none => simp [should_process_file, shouldProcessSpec]
    | some e =>
      simp only [should_process_file, shouldProcessSpec, Bool.not_true,
        Bool.false_eq_true, if_false]
      cases hashNow with
      | none => split_ifs <;> simp_all
      | some h =>
        cases hh : e.hash with
        | none => split_ifs <;> simp_all
        | some hc => split_ifs <;> (simp_all; try tauto)

/-- Witness for C8: a present, cached, small file whose hash moved is
    reprocessed. -/
theorem should_process_file_iff_witness :
    should_process_file true 7 10 (some "h2")
        (some { mtime := 7, size := 10, hash := some "h1", processedAt := 3 })
      = true ↔
      shouldProcessSpec true 7 10 (some "h2")
        (some { mtime := 7, size := 10, hash := some "h1", processedAt := 3 }) :=
  should_process_file_iff true 7 10 (some "h2")
    (some { mtime := 7, size := 10, hash := some "h1", processedAt := 3 })

set_option maxRecDepth 10000

/-- C9 counterexample: the chunk id is `md5(f"{file_path}_{i}")` over the
    path exactly as the caller spells it, not over the resolved
    project-relative source path.  The spellings `docs/a.md` (batch run from
    the project root) and `/project/docs/a.md` (watcher event) resolve to
    the same file and produce the same `source` metadata, yet their chunk 0
    ids differ — so the id is not a function of `(sourcePath, ordinal)`
    alone and is not independent of how the run spells the path. -/
theorem docId_spelling_counterexample :
    resolve "/project" "docs/a.md" = resolve "/project" "/project/docs/a.md" ∧
    relTo "/project" (resolve "/project" "docs/a.md") =
      relTo "/project" (resolve "/project" "/project/docs/a.md") ∧
    docId "docs/a.md" 0 ≠ docId "/project/docs/a.md" 0 := by
  refine ⟨by decide, by decide, by decide⟩

/-- C9 amended: the chunk id is a deterministic function of the raw path
    string as passed and the ordinal alone — independent of the file's
    content, of the working directory and of anything else in the run — so
    the same spelling and ordinal always yield the same id across runs
    (while different spellings of the same file need not, see the
    counterexample). -/
theorem docId_deterministic (cwd₁ cwd₂ rawPath : String) (c₁ c₂ : List Char)
    (i : Nat) (h₁ : i < (mkDocuments cwd₁ rawPath c₁).length)
    (h₂ : i < (mkDocuments cwd₂ rawPath c₂).length) :
    ((mkDocuments cwd₁ rawPath c₁).get ⟨i, h₁⟩).id
      = ((mkDocuments cwd₂ rawPath c₂).get ⟨i, h₂⟩).id := by
  unfold mkDocuments at *
  rw [List.get_eq_getElem, List.get_eq_getElem, List.getElem_mapIdx,
    List.getElem_mapIdx]

/-- Witness for C9 amended: chunk 0 of the same spelling under two different
    working directories and contents has the same id. -/
theorem docId_deterministic_witness :
    0 < (mkDocuments "/p" "a.md" ['x']).length ∧
    0 < (mkDocuments "/q" "a.md" ['y', 'z']).length ∧
    ((mkDocuments "/p" "a.md" ['x']).get
        ⟨0, by decide⟩).id
      = ((mkDocuments "/q" "a.md" ['y', 'z']).get
        ⟨0, by decide⟩).id :=
  ⟨by decide, by decide,
   docId_deterministic "/p" "/q" "a.md" ['x'] ['y', 'z'] 0 (by decide) (by decide)⟩

/-- The error a failing store mutation raises. -/
def failErr : FailAt → RepErr
  | FailAt.atDelete => RepErr.deleteFailed
  | _ => RepErr.upsertFailed

/-- The ids stored under one source form a sublist of all ids, hence are
    unique in an id-unique store. -/
theorem backup_ids_nodup (store : Store) (src : String)
    (hnd : (store.map (·.id)).Nodup) :
    ((getBySource store src).map (·.id)).Nodup := by
  apply List.Nodup.sublist _ hnd
  exact List.Sublist.map _ (List.filter_sublist store)

/-- C1: for every path whose replace begins with a non-empty backup of its
    existing chunks, a failure of either store mutation (the delete of the
    backed-up chunks inside `process_file`, or the upsert of the new chunks
    in the debounced handler) leaves, after the rollback, the store content
    for that path exactly as before — same ids, same documents, same
    metadata, in order — and the reported error is the original failure. -/
theorem replace_rollback (cwd rawPath : String) (store : Store)
    (cacheMem cacheDisk : List (String × CacheEntry)) (entry : CacheEntry)
    (docs : List Chunk) (fail : FailAt)
    (hnd : (store.map (·.id)).Nodup)
    (hbackup : getBySource store (relTo cwd (resolve cwd rawPath)) ≠ [])
    (hfail : fail ≠ FailAt.noFail) :
    getBySource
        (debounced_replace cwd rawPath store cacheMem cacheDisk entry docs
          fail).store (relTo cwd (resolve cwd rawPath))
      = getBySource store (relTo cwd (resolve cwd rawPath)) ∧
    (debounced_replace cwd rawPath store cacheMem cacheDisk entry docs
        fail).errors = [failErr fail] := by
  unfold debounced_replace
  have hne : (getBySource store (relTo cwd (resolve cwd rawPath))).isEmpty = false := by
    rw [List.isEmpty_eq_false_iff_exists_mem]
    cases h : getBySource store (relTo cwd (resolve cwd rawPath)) with
    | nil => exact absurd h hbackup
    | cons a l => exact ⟨a, by simp⟩
  simp only [hne, Bool.false_eq_true, if_false]
  cases fail with
  | noFail => exact absurd rfl hfail
  | atDelete =>
    refine ⟨?_, rfl⟩
    simp only
    rw [upsert_self store _ hnd (fun c hc => mem_of_mem_getBySource hc)]
  | atUpsert =>
    refine ⟨?_, rfl⟩
    simp only
    rw [upsert_fresh]
    · rw [getBySource_append, getBySource_deleteIds_self, getBySource_idem,
        List.nil_append]
    · intro c hc d hd
      have hdid : d.id ∉ (getBySource store (relTo cwd (resolve cwd rawPath))).map (·.id) := by
        have := (List.mem_filter.1 hd).2
        simpa using this
      intro he
      exact hdid (he ▸ List.mem_map_of_mem _ hc)
    · exact backup_ids_nodup store _ hnd

/-- Sample values for concrete witnesses. -/
def sampleMeta (src : String) : Meta :=
  { source := src, filename := src, chunkIndex := 0, fileType := ".md",
    category := "general", pathDepth := 0, parentDir := "",
    pathAncestors := "", levels := [] }

def sampleChunk (i d src : String) : Chunk :=
  { id := i, doc := d, meta := sampleMeta src }

def sampleEntry : CacheEntry :=
  { mtime := 1, size := 1, hash := none, processedAt := 2 }

/-- Witness for C1: a one-chunk store, a failing upsert, the chunk survives
    untouched and the upsert error is reported. -/
theorem replace_rollback_witness :
    getBySource
        (debounced_replace "/p" "/p/a.md" [sampleChunk "i1" "x" "a.md"]
          [] [] sampleEntry [sampleChunk "i2" "y" "a.md"]
          FailAt.atUpsert).store (relTo "/p" (resolve "/p" "/p/a.md"))
      = getBySource [sampleChunk "i1" "x" "a.md"]
          (relTo "/p" (resolve "/p" "/p/a.md")) ∧
    (debounced_replace "/p" "/p/a.md" [sampleChunk "i1" "x" "a.md"]
        [] [] sampleEntry [sampleChunk "i2" "y" "a.md"]
        FailAt.atUpsert).errors = [failErr FailAt.atUpsert] :=
  replace_rollback "/p" "/p/a.md" _ [] [] _ _ FailAt.atUpsert
    (by decide) (by decide) (by decide)

/-- C2 counterexample: in the successful watcher path the in-memory
    fingerprint-cache entry update (`_update_file_cache`, called inside
    `process_file`) happens strictly before the upsert that writes the new
    chunks to the store — the cache update precedes the store update, against
    the claim that it never does.  The concrete trace is shown in full. -/
theorem cache_before_upsert_counterexample :
    (debounced_replace "/p" "a.md" [] [] [] sampleEntry
        [sampleChunk "i2" "y" "a.md"] FailAt.noFail).trace
      = [ReplaceOp.backupRead "a.md", ReplaceOp.backupRead "a.md",
         ReplaceOp.cacheEntryUpdate "/p/a.md", ReplaceOp.upsertOp ["i2"],
         ReplaceOp.cacheSave] ∧
    (debounced_replace "/p" "a.md" [] [] [] sampleEntry
        [sampleChunk "i2" "y" "a.md"] FailAt.noFail).trace.indexOf
        (ReplaceOp.cacheEntryUpdate "/p/a.md")
      < (debounced_replace "/p" "a.md" [] [] [] sampleEntry
          [sampleChunk "i2" "y" "a.md"] FailAt.noFail).trace.indexOf
          (ReplaceOp.upsertOp ["i2"]) := by
  refine ⟨by decide, by decide⟩

/-- C2 amended: in the watcher path the in-memory cache entry update
    precedes the store upsert; what is sequenced after the successful upsert
    is the persistence of the cache (`_save_cache`), and on an upsert
    failure the on-disk cache is left untouched. -/
theorem cache_update_order (cwd rawPath : String) (store : Store)
    (cacheMem cacheDisk : List (String × CacheEntry)) (entry : CacheEntry)
    (docs : List Chunk) :
    ((debounced_replace cwd rawPath store cacheMem cacheDisk entry docs
          FailAt.noFail).trace.indexOf
        (ReplaceOp.cacheEntryUpdate (resolve cwd rawPath))
      < (debounced_replace cwd rawPath store cacheMem cacheDisk entry docs
          FailAt.noFail).trace.indexOf (ReplaceOp.upsertOp (docs.map (·.id))) ∧
     (debounced_replace cwd rawPath store cacheMem cacheDisk entry docs
          FailAt.noFail).trace.indexOf (ReplaceOp.upsertOp (docs.map (·.id)))
      < (debounced_replace cwd rawPath store cacheMem cacheDisk entry docs
          FailAt.noFail).trace.indexOf ReplaceOp.cacheSave) ∧
    (debounced_replace cwd rawPath store cacheMem cacheDisk entry docs
        FailAt.atUpsert).cacheDisk = cacheDisk := by
  constructor
  · unfold debounced_replace
    by_cases hb : (getBySource store (relTo cwd (resolve cwd rawPath))).isEmpty = true
    · simp only [hb, if_true]
      simp [List.indexOf_cons]
    · simp only [hb, Bool.false_eq_true, if_false]
      simp [List.indexOf_cons]
  · unfold debounced_replace
    by_cases hb : (getBySource store (relTo cwd (resolve cwd rawPath))).isEmpty = true
    · simp [hb]
    · simp only [hb, Bool.false_eq_true, if_false]

/-- Witness for C2 amended at a concrete one-document input. -/
theorem cache_update_order_witness :
    ((debounced_replace "/q" "b.md" [] [] [] sampleEntry
          [sampleChunk "i9" "z" "b.md"] FailAt.noFail).trace.indexOf
        (ReplaceOp.cacheEntryUpdate (resolve "/q" "b.md"))
      < (debounced_replace "/q" "b.md" [] [] [] sampleEntry
          [sampleChunk "i9" "z" "b.md"] FailAt.noFail).trace.indexOf
          (ReplaceOp.upsertOp ([sampleChunk "i9" "z" "b.md"].map (·.id))) ∧
     (debounced_replace "/q" "b.md" [] [] [] sampleEntry
          [sampleChunk "i9" "z" "b.md"] FailAt.noFail).trace.indexOf
          (ReplaceOp.upsertOp ([sampleChunk "i9" "z" "b.md"].map (·.id)))
      < (debounced_replace "/q" "b.md" [] [] [] sampleEntry
          [sampleChunk "i9" "z" "b.md"] FailAt.noFail).trace.indexOf
          ReplaceOp.cacheSave) ∧
    (debounced_replace "/q" "b.md" [] [] [] sampleEntry
        [sampleChunk "i9" "z" "b.md"] FailAt.atUpsert).cacheDisk = [] :=
  cache_update_order "/q" "b.md" [] [] [] sampleEntry
    [sampleChunk "i9" "z" "b.md"]

/-- C5: a delayed deletion is never acted on early — any firing before the
    grace period has elapsed leaves the state untouched — and once the grace
    period has elapsed and the re-check finds the file absent, the path's
    chunks are removed from the store and its fingerprint-cache entry,
    hash-tracking entry and pending-deletion entry are all dropped; the
    grace timer itself is scheduled exactly `graceDs` after the delete. -/
theorem delayed_deletion_spec (D : Nat) (cwd : String) (fs : FS) (p : String)
    (s : WatchState) (dt : Nat)
    (hp : lookupKey s.pendingDeletions p = some dt) :
    (∀ t s0, (scheduleDelayedDeletion t p s0).2
        = [(t + graceDs, TAct.delayedDel p)]) ∧
    (∀ t, t - dt < graceDs → delayedDeletion D cwd fs t p s = (s, [])) ∧
    (∀ t, graceDs ≤ t - dt → fs t p = none →
      getBySource (delayedDeletion D cwd fs t p s).1.store
          (relTo cwd (resolve cwd p)) = [] ∧
      lookupKey (delayedDeletion D cwd fs t p s).1.cacheFiles
          (resolve cwd p) = none ∧
      lookupKey (delayedDeletion D cwd fs t p s).1.fileHashes p = none ∧
      lookupKey (delayedDeletion D cwd fs t p s).1.pendingDeletions p = none) := by
  refine ⟨fun t s0 => rfl, ?_, ?_⟩
  · intro t ht
    unfold delayedDeletion
    rw [hp]
    simp only [ht, if_pos]
  · intro t ht hfs
    unfold delayedDeletion
    rw [hp]
    have : ¬(t - dt < graceDs) := by omega
    simp only [this, if_neg, hfs]
    refine ⟨?_, ?_, ?_, ?_⟩
    · exact getBySource_deleteIds_self s.store _
    · exact lookup_removeKey_self _ _
    · exact lookup_removeKey_self _ _
    · exact lookup_removeKey_self _ _

/-- A sample watcher state and an empty filesystem for concrete witnesses. -/
def sampleWatch : WatchState :=
  { pendingFiles := [], pendingDeletions := [("/p/a.md", 0)],
    fileHashes := [("/p/a.md", "h")],
    store := [sampleChunk "i1" "x" "a.md"],
    cacheFiles := [("/p/a.md", sampleEntry)] }

def noFS : FS := fun _ _ => none

/-- Witness for C5: one tracked chunk, deletion observed at time 0,
    confirmed after the grace period with the file absent. -/
theorem delayed_deletion_spec_witness :
    (∀ t s0, (scheduleDelayedDeletion t "/p/a.md" s0).2
        = [(t + graceDs, TAct.delayedDel "/p/a.md")]) ∧
    (∀ t, t - 0 < graceDs →
      delayedDeletion 50 "/p" noFS t "/p/a.md" sampleWatch = (sampleWatch, [])) ∧
    (∀ t, graceDs ≤ t - 0 → noFS t "/p/a.md" = none →
      getBySource (delayedDeletion 50 "/p" noFS t "/p/a.md" sampleWatch).1.store
          (relTo "/p" (resolve "/p" "/p/a.md")) = [] ∧
      lookupKey (delayedDeletion 50 "/p" noFS t "/p/a.md" sampleWatch).1.cacheFiles
          (resolve "/p" "/p/a.md") = none ∧
      lookupKey (delayedDeletion 50 "/p" noFS t "/p/a.md" sampleWatch).1.fileHashes
          "/p/a.md" = none ∧
      lookupKey (delayedDeletion 50 "/p" noFS t "/p/a.md" sampleWatch).1.pendingDeletions
          "/p/a.md" = none) :=
  delayed_deletion_spec 50 "/p" noFS "/p/a.md" sampleWatch 0 (by decide)

/-! ## C6: move-detection selection lemmas -/

/-- The preference order of the candidate sort: score first, deletion time
    second. -/
def candLE (a b : MoveCand) : Prop :=
  a.2.2 < b.2.2 ∨ (a.2.2 = b.2.2 ∧ a.2.1 ≤ b.2.1)

theorem candLE_refl (a : MoveCand) : candLE a a := Or.inr ⟨rfl, le_refl _⟩

theorem candLE_trans {a b c : MoveCand} (h1 : candLE a b) (h2 : candLE b c) :
    candLE a c := by
  unfold candLE at *
  omega

theorem moveCandStep_or (a n : MoveCand) :
    moveCandStep a n = a ∨ moveCandStep a n = n := by
  unfold moveCandStep
  split
  · exact Or.inr rfl
  · exact Or.inl rfl

theorem candLE_step_left (a n : MoveCand) : candLE a (moveCandStep a n) := by
  unfold moveCandStep
  split
  · next h =>
    rw [Bool.or_eq_true, Bool.and_eq_true] at h
    rcases h with h | ⟨h1, h2⟩
    · have hlt : a.2.2 < n.2.2 := by simpa using h
      exact Or.inl hlt
    · have heq : n.2.2 = a.2.2 := by simpa using h1
      have hlt : a.2.1 < n.2.1 := by simpa using h2
      exact Or.inr ⟨heq.symm, le_of_lt hlt⟩
  · exact candLE_refl a

theorem candLE_step_right (a n : MoveCand) : candLE n (moveCandStep a n) := by
  unfold moveCandStep
  split
  · exact candLE_refl n
  · next h =>
    rw [Bool.or_eq_true, Bool.and_eq_true] at h
    push_neg at h
    obtain ⟨h1, h2⟩ := h
    have h1' : n.2.2 ≤ a.2.2 := by simpa using h1
    unfold candLE
    rcases Nat.lt_or_ge n.2.2 a.2.2 with hlt | hge
    · exact Or.inl hlt
    · have heq : n.2.2 = a.2.2 := le_antisymm h1' hge
      have h3 := h2 (by simpa using heq)
      exact Or.inr ⟨heq, by simpa using h3⟩

theorem foldl_moveCandStep_spec (l : List MoveCand) (a : MoveCand) :
    (l.foldl moveCandStep a = a ∨ l.foldl moveCandStep a ∈ l) ∧
    candLE a (l.foldl moveCandStep a) ∧
    (∀ c ∈ l, candLE c (l.foldl moveCandStep a)) := by
  induction l generalizing a with
  | nil => exact ⟨Or.inl rfl, candLE_refl a, by simp⟩
  | cons n rest ih =>
    obtain ⟨hmem, hle, hall⟩ := ih (moveCandStep a n)
    simp only [List.foldl_cons]
    refine ⟨?_, ?_, ?_⟩
    · rcases hmem with h | h
      · rcases moveCandStep_or a n with h2 | h2
        · exact Or.inl (h.trans h2)
        · exact Or.inr (by rw [h, h2]; simp)
      · exact Or.inr (by simp [h])
    · exact candLE_trans (candLE_step_left a n) hle
    · intro c hc
      rcases List.mem_cons.1 hc with h | h
      · rw [h]
        exact candLE_trans (candLE_step_right a n) hle
      · exact hall c h

theorem mem_moveCands (now window : Nat) (cn ce : String) (ch : Option String)
    (csz : Option Nat) (fh : List (String × String))
    (cache : List (String × CacheEntry)) (pendings : List (String × Nat))
    (c : MoveCand) :
    c ∈ moveCands now window cn ce ch csz fh cache pendings ↔
      ∃ e ∈ pendings, now - e.2 ≤ window ∧
        c = (e.1, e.2, moveScore cn ce ch csz fh cache e.1) ∧ 50 ≤ c.2.2 := by
  unfold moveCands
  rw [List.mem_filter, List.mem_filterMap]
  constructor
  · rintro ⟨⟨e, he, hsome⟩, hsc⟩
    by_cases hw : now - e.2 ≤ window
    · rw [if_pos hw] at hsome
      exact ⟨e, he, hw, (Option.some.inj hsome).symm, by simpa using hsc⟩
    · rw [if_neg hw] at hsome
      exact absurd hsome (by simp)
  · rintro ⟨e, he, hw, hc, hsc⟩
    refine ⟨⟨e, he, ?_⟩, by simpa using hsc⟩
    rw [if_pos hw, hc]

/-- C6: `_detect_file_move` reports no move exactly when no pending deletion
    inside the move-detection window scores at least the minimum of 50; when
    it reports a source, that source is a pending deletion inside the window
    scoring at least 50 (hash +100, filename +50, extension +20, cached size
    +30), and every qualifying candidate either scores strictly less or ties
    on score with an older-or-equal deletion time. -/
theorem detect_file_move_spec (now window : Nat) (cn ce : String)
    (ch : Option String) (csz : Option Nat) (fh : List (String × String))
    (cache : List (String × CacheEntry)) (pendings : List (String × Nat)) :
    (detect_file_move now window cn ce ch csz fh cache pendings = none ↔
      ∀ e ∈ pendings, ¬(now - e.2 ≤ window ∧
        50 ≤ moveScore cn ce ch csz fh cache e.1)) ∧
    (∀ src, detect_file_move now window cn ce ch csz fh cache pendings = some src →
      ∃ dt, (src, dt) ∈ pendings ∧ now - dt ≤ window ∧
        50 ≤ moveScore cn ce ch csz fh cache src ∧
        ∀ e ∈ pendings, now - e.2 ≤ window →
          50 ≤ moveScore cn ce ch csz fh cache e.1 →
          (moveScore cn ce ch csz fh cache e.1
              < moveScore cn ce ch csz fh cache src ∨
            (moveScore cn ce ch csz fh cache e.1
                = moveScore cn ce ch csz fh cache src ∧ e.2 ≤ dt))) := by
  constructor
  · unfold detect_file_move
    cases hc : moveCands now window cn ce ch csz fh cache pendings with
    | nil =>
      simp only [bestCand, Option.map_none']
      constructor
      · intro _ e he ⟨hw, hs⟩
        have : (e.1, e.2, moveScore cn ce ch csz fh cache e.1)
            ∈ moveCands now window cn ce ch csz fh cache pendings :=
          (mem_moveCands now window cn ce ch csz fh cache pendings _).2
            ⟨e, he, hw, rfl, hs⟩
        rw [hc] at this
        exact absurd this (by simp)
      · intro _
        trivial
    | cons c0 cs =>
      simp only [bestCand, Option.map_some']
      constructor
      · intro h
        exact absurd h (by simp)
      · intro h
        have hmem : c0 ∈ moveCands now window cn ce ch csz fh cache pendings := by
          rw [hc]
          simp
        obtain ⟨e, he, hw, hceq, hs⟩ :=
          (mem_moveCands now window cn ce ch csz fh cache pendings c0).1 hmem
        rw [hceq] at hs
        simp only at hs
        exact absurd ⟨hw, hs⟩ (h e he)
  · intro src hsrc
    unfold detect_file_move at hsrc
    cases hc : moveCands now window cn ce ch csz fh cache pendings with
    | nil => rw [hc] at hsrc; exact absurd hsrc (by simp [bestCand])
    | cons c0 cs =>
      rw [hc] at hsrc
      simp only [bestCand, Option.map_some', Option.some.injEq] at hsrc
      set r := cs.foldl moveCandStep c0 with hr
      obtain ⟨hmem, hle0, hall⟩ := foldl_moveCandStep_spec cs c0
      have hrmem : r ∈ moveCands now window cn ce ch csz fh cache pendings := by
        rw [hc]
        rcases hmem with h | h
        · rw [← hr] at h
          rw [h]
          simp
        · rw [← hr] at h
          simp [h]
      obtain ⟨e, he, hw, hceq, hs⟩ :=
        (mem_moveCands now window cn ce ch csz fh cache pendings r).1 hrmem
      have hsrc1 : src = e.1 := by
        rw [hceq] at hsrc
        simpa using hsrc.symm
      have hscore : r.2.2 = moveScore cn ce ch csz fh cache src := by
        rw [hceq, hsrc1]
      have htime : r.2.1 = e.2 := by rw [hceq]
      refine ⟨e.2, ?_, hw, ?_, ?_⟩
      · rw [hsrc1]
        exact he
      · rw [← hscore]
        exact hs
      · intro f hf hfw hfs
        have hfmem : (f.1, f.2, moveScore cn ce ch csz fh cache f.1)
            ∈ moveCands now window cn ce ch csz fh cache pendings :=
          (mem_moveCands now window cn ce ch csz fh cache pendings _).2
            ⟨f, hf, hfw, rfl, hfs⟩
        rw [hc] at hfmem
        have hLE : candLE (f.1, f.2, moveScore cn ce ch csz fh cache f.1) r := by
          rcases List.mem_cons.1 hfmem with h | h
          · rw [h]
            exact hle0
          · exact hall _ h
        unfold candLE at hLE
        simp only at hLE
        rw [hscore, htime] at hLE
        exact hLE

/-- Witness for C6: a deletion of `/p/old.md` (tracked hash `H`) 5 tenths
    before a creation with the same hash and extension is selected as the
    move source; a scoreless candidate is rejected. -/
theorem detect_file_move_spec_witness :
    ∃ dt, ("/p/old.md", dt)
        ∈ ([("/p/old.md", 95), ("/p/other.txt", 96)] : List (String × Nat)) ∧
      100 - dt ≤ 100 ∧
      50 ≤ moveScore "a.md" ".md" (some "H") (some 5)
          [("/p/old.md", "H")] [] "/p/old.md" ∧
      ∀ e ∈ ([("/p/old.md", 95), ("/p/other.txt", 96)] : List (String × Nat)),
        100 - e.2 ≤ 100 →
        50 ≤ moveScore "a.md" ".md" (some "H") (some 5)
            [("/p/old.md", "H")] [] e.1 →
        (moveScore "a.md" ".md" (some "H") (some 5)
              [("/p/old.md", "H")] [] e.1
            < moveScore "a.md" ".md" (some "H") (some 5)
              [("/p/old.md", "H")] [] "/p/old.md" ∨
          (moveScore "a.md" ".md" (some "H") (some 5)
                [("/p/old.md", "H")] [] e.1
              = moveScore "a.md" ".md" (some "H") (some 5)
                [("/p/old.md", "H")] [] "/p/old.md" ∧ e.2 ≤ dt)) :=
  (detect_file_move_spec 100 100 "a.md" ".md" (some "H") (some 5)
      [("/p/old.md", "H")] [] [("/p/old.md", 95), ("/p/other.txt", 96)]).2
    "/p/old.md" (by decide)

/-! ## C7: move lemmas -/

/-- In a list with unique ids, `find?` by the id of a member of the mapped
    list returns that member's image, for an id-preserving map. -/
theorem find_map_of_unique (existing : List Chunk) (f : Chunk → Chunk)
    (hfid : ∀ c, (f c).id = c.id) (hnd : (existing.map (·.id)).Nodup)
    (d : Chunk) (hd : d ∈ existing) :
    (existing.map f).find? (fun u => u.id == d.id) = some (f d) := by
  induction existing with
  | nil => simp at hd
  | cons c rest ih =>
    rw [List.map_cons, List.find?_cons]
    by_cases he : ((f c).id == d.id) = true
    · simp only [he]
      have hcd : c = d := by
        have h1 : c.id = d.id := by
          have h2 := hfid c
          rw [← h2]
          simpa using he
        rcases List.mem_cons.1 hd with h | h
        · exact h.symm
        · have h2 : c.id ∈ rest.map (·.id) := by
            rw [h1]
            exact List.mem_map_of_mem _ h
          exact absurd h2 (List.nodup_cons.1 hnd).1
      rw [hcd]
    · simp only [he]
      have hdr : d ∈ rest := by
        rcases List.mem_cons.1 hd with h | h
        · rw [h] at he
          exact absurd (by simp [hfid]) he
        · exact h
      exact ih (List.nodup_cons.1 hnd).2 hdr

/-- No record of the mapped update list bears the id of a chunk outside the
    filtered set, in an id-unique store. -/
theorem find_map_none (store : Store) (src : String) (f : Chunk → Chunk)
    (hfid : ∀ c, (f c).id = c.id) (hnd : (store.map (·.id)).Nodup)
    (d : Chunk) (hd : d ∈ store) (hsrc : ¬(d.meta.source == src) = true) :
    ((getBySource store src).map f).find? (fun u => u.id == d.id) = none := by
  rw [List.find?_eq_none]
  intro u hu
  obtain ⟨c, hc, hcu⟩ := List.mem_map.1 hu
  have hcmem : c ∈ store := mem_of_mem_getBySource hc
  have hcsrc : c.meta.source = src := source_of_mem_getBySource hc
  simp only [Bool.not_eq_true]
  cases h2 : (u.id == d.id) with
  | false => rfl
  | true =>
    have hid : c.id = d.id := by
      have h3 := hfid c
      rw [hcu] at h3
      rw [← h3]
      simpa using h2
    have h4 : c = d := id_inj_of_nodup hnd hcmem hd hid
    rw [h4] at hcsrc
    exact absurd (by simp [hcsrc]) hsrc

/-- The chunks under the destination source after an in-place path rewrite
    are exactly the images of the chunks that were under the moved source,
    when the destination held none before. -/
theorem getBySource_map_update_new (store : Store) (oldRel newRel : String)
    (f : Chunk → Chunk) (hfsrc : ∀ c, (f c).meta.source = newRel)
    (hdst : ∀ d ∈ store, d.meta.source ≠ newRel) :
    getBySource
        (store.map (fun d => if d.meta.source == oldRel then f d else d)) newRel
      = (getBySource store oldRel).map f := by
  induction store with
  | nil => rfl
  | cons d rest ih =>
    have ihr := ih (fun u hu => hdst u (by simp [hu]))
    unfold getBySource at *
    rw [List.map_cons, List.filter_cons, List.filter_cons]
    by_cases hds : (d.meta.source == oldRel) = true
    · rw [if_pos hds]
      have h1 : ((f d).meta.source == newRel) = true := by simp [hfsrc d]
      simp only [h1, if_true, hds, List.map_cons]
      rw [ihr]
    · rw [if_neg hds]
      have h1 : (d.meta.source == newRel) = false := by
        have := hdst d (by simp)
        simpa using this
      simp only [h1, hds, Bool.false_eq_true, if_false]
      rw [ihr]

/-- After the rewrite, nothing remains under the moved source. -/
theorem getBySource_map_update_old (store : Store) (oldRel newRel : String)
    (f : Chunk → Chunk) (hfsrc : ∀ c, (f c).meta.source = newRel)
    (hne : newRel ≠ oldRel) :
    getBySource
        (store.map (fun d => if d.meta.source == oldRel then f d else d)) oldRel
      = [] := by
  unfold getBySource
  rw [List.filter_eq_nil_iff]
  intro u hu
  obtain ⟨d, _, hdu⟩ := List.mem_map.1 hu
  by_cases hds : (d.meta.source == oldRel) = true
  · rw [if_pos hds] at hdu
    rw [← hdu]
    simp [hfsrc d, hne]
  · rw [if_neg hds] at hdu
    rw [← hdu]
    simpa using hds

/-- C7: `move_file_in_database` is a no-op returning false when no chunks
    exist under the old path; otherwise it returns true, the chunks stored
    under the new source are exactly the old ones upserted in place — same
    ids, same document contents, with only source, filename and the
    directory-level fields rewritten for the new path (chunk index, file
    type and category untouched) — the old source holds nothing, and the
    fingerprint-cache entry is relocated under the new resolved key rather
    than deleted and recreated. -/
theorem move_file_in_database_spec (cwd : String) (store : Store)
    (cache : List (String × CacheEntry)) (oldPath newPath : String)
    (hnd : (store.map (·.id)).Nodup)
    (hdst : getBySource store (relTo cwd (resolve cwd newPath)) = [])
    (hne : relTo cwd (resolve cwd oldPath) ≠ relTo cwd (resolve cwd newPath))
    (hkey : resolve cwd oldPath ≠ resolve cwd newPath) :
    (getBySource store (relTo cwd (resolve cwd oldPath)) = [] →
      move_file_in_database cwd store cache oldPath newPath
        = (false, store, cache)) ∧
    (getBySource store (relTo cwd (resolve cwd oldPath)) ≠ [] →
      (move_file_in_database cwd store cache oldPath newPath).1 = true ∧
      getBySource (move_file_in_database cwd store cache oldPath newPath).2.1
          (relTo cwd (resolve cwd newPath))
        = (getBySource store (relTo cwd (resolve cwd oldPath))).map
            (fun c => { c with meta := movedMeta c.meta cwd newPath }) ∧
      (getBySource (move_file_in_database cwd store cache oldPath newPath).2.1
          (relTo cwd (resolve cwd newPath))).map (·.id)
        = (getBySource store (relTo cwd (resolve cwd oldPath))).map (·.id) ∧
      (getBySource (move_file_in_database cwd store cache oldPath newPath).2.1
          (relTo cwd (resolve cwd newPath))).map (·.doc)
        = (getBySource store (relTo cwd (resolve cwd oldPath))).map (·.doc) ∧
      getBySource (move_file_in_database cwd store cache oldPath newPath).2.1
          (relTo cwd (resolve cwd oldPath)) = [] ∧
      (∀ m : Meta, (movedMeta m cwd newPath).chunkIndex = m.chunkIndex ∧
        (movedMeta m cwd newPath).fileType = m.fileType ∧
        (movedMeta m cwd newPath).category = m.category ∧
        (movedMeta m cwd newPath).source = relTo cwd (resolve cwd newPath) ∧
        (movedMeta m cwd newPath).filename = nameOf newPath) ∧
      (∀ e, lookupKey cache (resolve cwd oldPath) = some e →
        lookupKey (move_file_in_database cwd store cache oldPath newPath).2.2
            (resolve cwd newPath) = some e ∧
        lookupKey (move_file_in_database cwd store cache oldPath newPath).2.2
            (resolve cwd oldPath) = none) ∧
      (lookupKey cache (resolve cwd oldPath) = none →
        (move_file_in_database cwd store cache oldPath newPath).2.2 = cache)) := by
  constructor
  · intro hempty
    simp only [move_file_in_database]
    rw [hempty]
    simp
  · intro hnonempty
    have hemp : (getBySource store (relTo cwd (resolve cwd oldPath))).isEmpty
        = false := by
      cases h : getBySource store (relTo cwd (resolve cwd oldPath)) with
      | nil => exact absurd h hnonempty
      | cons a l => rfl
    have hfid : ∀ c : Chunk,
        ((fun c => { c with meta := movedMeta c.meta cwd newPath } : Chunk → Chunk) c).id
          = c.id := fun c => rfl
    have hfsrc : ∀ c : Chunk,
        ((fun c => { c with meta := movedMeta c.meta cwd newPath } : Chunk → Chunk) c).meta.source
          = relTo cwd (resolve cwd newPath) := by
      intro c
      simp [movedMeta, updatePathMeta]
    have hstore2 :
        (move_file_in_database cwd store cache oldPath newPath).2.1
          = store.map (fun d =>
              if d.meta.source == relTo cwd (resolve cwd oldPath) then
                { d with meta := movedMeta d.meta cwd newPath }
              else d) := by
      simp only [move_file_in_database]
      rw [hemp]
      simp only [Bool.false_eq_true, if_false]
      rw [upsert_inplace]
      · apply List.map_congr_left
        intro d hd
        by_cases hds : (d.meta.source == relTo cwd (resolve cwd oldPath)) = true
        · rw [if_pos hds]
          have hdm : d ∈ getBySource store (relTo cwd (resolve cwd oldPath)) :=
            mem_getBySource hd (by simpa using hds)
          rw [find_map_of_unique _ _ hfid
            (backup_ids_nodup store _ hnd) d hdm]
          rfl
        · rw [if_neg hds]
          rw [find_map_none store _ _ hfid hnd d hd hds]
          rfl
      · exact hnd
      · have h5 : ((getBySource store (relTo cwd (resolve cwd oldPath))).map
            (fun c => { c with meta := movedMeta c.meta cwd newPath })).map (·.id)
            = (getBySource store (relTo cwd (resolve cwd oldPath))).map (·.id) := by
          rw [List.map_map]
          apply List.map_congr_left
          intro c _
          rfl
        rw [h5]
        exact backup_ids_nodup store _ hnd
      · intro u hu
        obtain ⟨c, hc, hcu⟩ := List.mem_map.1 hu
        rw [← hcu]
        show c.id ∈ store.map (·.id)
        exact List.mem_map_of_mem _ (mem_of_mem_getBySource hc)
    have hdstmem : ∀ d ∈ store, d.meta.source ≠ relTo cwd (resolve cwd newPath) := by
      intro d hd
      have h6 := List.filter_eq_nil_iff.1 hdst d hd
      simpa using h6
    have hnewSrc := getBySource_map_update_new store
      (relTo cwd (resolve cwd oldPath)) (relTo cwd (resolve cwd newPath))
      (fun c => { c with meta := movedMeta c.meta cwd newPath }) hfsrc hdstmem
    have holdSrc := getBySource_map_update_old store
      (relTo cwd (resolve cwd oldPath)) (relTo cwd (resolve cwd newPath))
      (fun c => { c with meta := movedMeta c.meta cwd newPath }) hfsrc (Ne.symm hne)
    have hflag : (move_file_in_database cwd store cache oldPath newPath).1 = true := by
      simp only [move_file_in_database]
      rw [hemp]
      rfl
    have hcache :
        (move_file_in_database cwd store cache oldPath newPath).2.2
          = match lookupKey cache (resolve cwd oldPath) with
            | some e => removeKey (setKey cache (resolve cwd newPath) e)
                (resolve cwd oldPath)
            | none => cache := by
      simp only [move_file_in_database]
      rw [hemp]
      rfl
    refine ⟨hflag, ?_, ?_, ?_, ?_, ?_, ?_, ?_⟩
    · rw [hstore2, hnewSrc]
    · rw [hstore2, hnewSrc, List.map_map]
      apply List.map_congr_left
      intro c _
      rfl
    · rw [hstore2, hnewSrc, List.map_map]
      apply List.map_congr_left
      intro c _
      rfl
    · rw [hstore2, holdSrc]
    · intro m
      refine ⟨rfl, rfl, rfl, ?_, ?_⟩
      · simp [movedMeta, updatePathMeta]
      · simp [movedMeta, updatePathMeta]
    · intro e he
      rw [hcache, he]
      constructor
      · simp only
        rw [lookup_removeKey_ne _ _ _ (Ne.symm hkey)]
        exact lookup_setKey_self cache (resolve cwd newPath) e
      · simp only
        exact lookup_removeKey_self _ _
    · intro he
      rw [hcache, he]

/-- Witness for C7: moving `/p/a.md` (one chunk, one cache entry) to
    `/p/b/c.md` reports success and relocates the cache entry. -/
theorem move_file_in_database_spec_witness :
    (move_file_in_database "/p" [sampleChunk "i1" "x" "a.md"]
        [("/p/a.md", sampleEntry)] "/p/a.md" "/p/b/c.md").1 = true ∧
    lookupKey (move_file_in_database "/p" [sampleChunk "i1" "x" "a.md"]
        [("/p/a.md", sampleEntry)] "/p/a.md" "/p/b/c.md").2.2
        (resolve "/p" "/p/b/c.md") = some sampleEntry ∧
    lookupKey (move_file_in_database "/p" [sampleChunk "i1" "x" "a.md"]
        [("/p/a.md", sampleEntry)] "/p/a.md" "/p/b/c.md").2.2
        (resolve "/p" "/p/a.md") = none ∧
    getBySource (move_file_in_database "/p" [sampleChunk "i1" "x" "a.md"]
        [("/p/a.md", sampleEntry)] "/p/a.md" "/p/b/c.md").2.1
        (relTo "/p" (resolve "/p" "/p/a.md")) = [] :=
  ⟨((move_file_in_database_spec "/p" [sampleChunk "i1" "x" "a.md"]
      [("/p/a.md", sampleEntry)] "/p/a.md" "/p/b/c.md"
      (by decide) (by decide) (by decide) (by decide)).2 (by decide)).1,
   (((move_file_in_database_spec "/p" [sampleChunk "i1" "x" "a.md"]
      [("/p/a.md", sampleEntry)] "/p/a.md" "/p/b/c.md"
      (by decide) (by decide) (by decide) (by decide)).2
        (by decide)).2.2.2.2.2.2.1 sampleEntry (by decide)).1,
   (((move_file_in_database_spec "/p" [sampleChunk "i1" "x" "a.md"]
      [("/p/a.md", sampleEntry)] "/p/a.md" "/p/b/c.md"
      (by decide) (by decide) (by decide) (by decide)).2
        (by decide)).2.2.2.2.2.2.1 sampleEntry (by decide)).2,
   ((move_file_in_database_spec "/p" [sampleChunk "i1" "x" "a.md"]
      [("/p/a.md", sampleEntry)] "/p/a.md" "/p/b/c.md"
      (by decide) (by decide) (by decide) (by decide)).2
        (by decide)).2.2.2.2.1⟩

/-- A chunk whose metadata was produced by processing `/p/a/b/x.md`
    (two directory levels below the project root `/p`). -/
def deepChunk : Chunk :=
  { id := "i9", doc := "x", meta := mkMeta "/p" "/p/a/b/x.md" 0 }

/-- C7 counterexample: moving `/p/a/b/x.md` (two directory levels) to the
    project root `/p/x.md` (zero directory levels) succeeds, but the moved
    chunk's per-level directory fields still carry the old path's directory
    names `a` and `b` — the `dict.update` with the new path's metadata never
    removes the deeper `path_level_i` keys — while the new path's directory
    part is empty and the rewritten depth says `0`.  So the directory-level
    fields do not reflect the new path. -/
theorem move_levels_counterexample :
    (move_file_in_database "/p" [deepChunk] [] "/p/a/b/x.md" "/p/x.md").1
      = true ∧
    (getBySource (move_file_in_database "/p" [deepChunk] []
          "/p/a/b/x.md" "/p/x.md").2.1
        (relTo "/p" (resolve "/p" "/p/x.md"))).map (fun c => c.meta.levels)
      = [["a", "b"]] ∧
    (getBySource (move_file_in_database "/p" [deepChunk] []
          "/p/a/b/x.md" "/p/x.md").2.1
        (relTo "/p" (resolve "/p" "/p/x.md"))).map (fun c => c.meta.pathDepth)
      = [0] ∧
    dirParts "/p" "/p/x.md" = [] ∧
    dirParts "/p" "/p/a/b/x.md" = ["a", "b"] := by
  refine ⟨by decide, by decide, by decide, by decide, by decide⟩

/-- C7 (amended): `move_file_in_database` is a no-op returning false when no
    chunks exist under the old path; otherwise it returns true, the chunks
    stored under the new source are exactly the old ones upserted in place —
    same ids, same document contents, with source, filename, path depth,
    parent directory and the ancestors string rewritten for the new path
    (chunk index, file type and category untouched), while the per-level
    directory fields are overwritten only below the new path's directory
    depth, deeper stale levels surviving from the old path — the old source
    holds nothing, and the fingerprint-cache entry is relocated under the
    new resolved key rather than deleted and recreated. -/
theorem move_file_in_database_amended (cwd : String) (store : Store)
    (cache : List (String × CacheEntry)) (oldPath newPath : String)
    (hnd : (store.map (·.id)).Nodup)
    (hdst : getBySource store (relTo cwd (resolve cwd newPath)) = [])
    (hne : relTo cwd (resolve cwd oldPath) ≠ relTo cwd (resolve cwd newPath))
    (hkey : resolve cwd oldPath ≠ resolve cwd newPath) :
    (getBySource store (relTo cwd (resolve cwd oldPath)) = [] →
      move_file_in_database cwd store cache oldPath newPath
        = (false, store, cache)) ∧
    (getBySource store (relTo cwd (resolve cwd oldPath)) ≠ [] →
      (move_file_in_database cwd store cache oldPath newPath).1 = true ∧
      getBySource (move_file_in_database cwd store cache oldPath newPath).2.1
          (relTo cwd (resolve cwd newPath))
        = (getBySource store (relTo cwd (resolve cwd oldPath))).map
            (fun c => { c with meta := movedMeta c.meta cwd newPath }) ∧
      (getBySource (move_file_in_database cwd store cache oldPath newPath).2.1
          (relTo cwd (resolve cwd newPath))).map (·.id)
        = (getBySource store (relTo cwd (resolve cwd oldPath))).map (·.id) ∧
      (getBySource (move_file_in_database cwd store cache oldPath newPath).2.1
          (relTo cwd (resolve cwd newPath))).map (·.doc)
        = (getBySource store (relTo cwd (resolve cwd oldPath))).map (·.doc) ∧
      (getBySource (move_file_in_database cwd store cache oldPath newPath).2.1
          (relTo cwd (resolve cwd newPath))).map (fun c => c.meta.levels)
        = (getBySource store (relTo cwd (resolve cwd oldPath))).map
            (fun c => dirParts cwd newPath
              ++ c.meta.levels.drop (dirParts cwd newPath).length) ∧
      getBySource (move_file_in_database cwd store cache oldPath newPath).2.1
          (relTo cwd (resolve cwd oldPath)) = [] ∧
      (∀ m : Meta, (movedMeta m cwd newPath).chunkIndex = m.chunkIndex ∧
        (movedMeta m cwd newPath).fileType = m.fileType ∧
        (movedMeta m cwd newPath).category = m.category ∧
        (movedMeta m cwd newPath).source = relTo cwd (resolve cwd newPath) ∧
        (movedMeta m cwd newPath).filename = nameOf newPath ∧
        (movedMeta m cwd newPath).pathDepth = (dirParts cwd newPath).length ∧
        (movedMeta m cwd newPath).parentDir
          = (dirParts cwd newPath).getLastD "" ∧
        (movedMeta m cwd newPath).pathAncestors
          = ancestorsStr (dirParts cwd newPath)) ∧
      (∀ e, lookupKey cache (resolve cwd oldPath) = some e →
        lookupKey (move_file_in_database cwd store cache oldPath newPath).2.2
            (resolve cwd newPath) = some e ∧
        lookupKey (move_file_in_database cwd store cache oldPath newPath).2.2
            (resolve cwd oldPath) = none) ∧
      (lookupKey cache (resolve cwd oldPath) = none →
        (move_file_in_database cwd store cache oldPath newPath).2.2
          = cache)) := by
  have base := move_file_in_database_spec cwd store cache oldPath newPath
    hnd hdst hne hkey
  refine ⟨base.1, ?_⟩
  intro hnonempty
  obtain ⟨hflag, hcontent, hids, hdocs, hold, hmeta, hcs, hcn⟩ :=
    base.2 hnonempty
  refine ⟨hflag, hcontent, hids, hdocs, ?_, hold, ?_, hcs, hcn⟩
  · rw [hcontent, List.map_map]
    apply List.map_congr_left
    intro c _
    show (movedMeta c.meta cwd newPath).levels = _
    simp [movedMeta, updatePathMeta]
  · intro m
    obtain ⟨h1, h2, h3, h4, h5⟩ := hmeta m
    refine ⟨h1, h2, h3, h4, h5, ?_, ?_, ?_⟩
    · simp [movedMeta, updatePathMeta]
    · simp [movedMeta, updatePathMeta]
    · simp [movedMeta, updatePathMeta]

/-- Witness for C7 amended: moving `/p/a/b/x.md` (one chunk, one cache
    entry) to `/p/x.md` reports success, empties the old source, relocates
    the cache entry, and the moved chunk's level fields follow the
    stale-survival formula. -/
theorem move_file_in_database_amended_witness :
    (move_file_in_database "/p" [deepChunk] [("/p/a/b/x.md", sampleEntry)]
        "/p/a/b/x.md" "/p/x.md").1 = true ∧
    (getBySource (move_file_in_database "/p" [deepChunk]
          [("/p/a/b/x.md", sampleEntry)] "/p/a/b/x.md" "/p/x.md").2.1
        (relTo "/p" (resolve "/p" "/p/x.md"))).map (fun c => c.meta.levels)
      = (getBySource [deepChunk]
          (relTo "/p" (resolve "/p" "/p/a/b/x.md"))).map
          (fun c => dirParts "/p" "/p/x.md"
            ++ c.meta.levels.drop (dirParts "/p" "/p/x.md").length) ∧
    getBySource (move_file_in_database "/p" [deepChunk]
          [("/p/a/b/x.md", sampleEntry)] "/p/a/b/x.md" "/p/x.md").2.1
        (relTo "/p" (resolve "/p" "/p/a/b/x.md")) = [] ∧
    lookupKey (move_file_in_database "/p" [deepChunk]
          [("/p/a/b/x.md", sampleEntry)] "/p/a/b/x.md" "/p/x.md").2.2
        (resolve "/p" "/p/x.md") = some sampleEntry ∧
    lookupKey (move_file_in_database "/p" [deepChunk]
          [("/p/a/b/x.md", sampleEntry)] "/p/a/b/x.md" "/p/x.md").2.2
        (resolve "/p" "/p/a/b/x.md") = none :=
  ⟨((move_file_in_database_amended "/p" [deepChunk]
      [("/p/a/b/x.md", sampleEntry)] "/p/a/b/x.md" "/p/x.md"
      (by decide) (by decide) (by decide) (by decide)).2 (by decide)).1,
   ((move_file_in_database_amended "/p" [deepChunk]
      [("/p/a/b/x.md", sampleEntry)] "/p/a/b/x.md" "/p/x.md"
      (by decide) (by decide) (by decide) (by decide)).2
        (by decide)).2.2.2.2.1,
   ((move_file_in_database_amended "/p" [deepChunk]
      [("/p/a/b/x.md", sampleEntry)] "/p/a/b/x.md" "/p/x.md"
      (by decide) (by decide) (by decide) (by decide)).2
        (by decide)).2.2.2.2.2.1,
   (((move_file_in_database_amended "/p" [deepChunk]
      [("/p/a/b/x.md", sampleEntry)] "/p/a/b/x.md" "/p/x.md"
      (by decide) (by decide) (by decide) (by decide)).2
        (by decide)).2.2.2.2.2.2.2.1 sampleEntry (by decide)).1,
   (((move_file_in_database_amended "/p" [deepChunk]
      [("/p/a/b/x.md", sampleEntry)] "/p/a/b/x.md" "/p/x.md"
      (by decide) (by decide) (by decide) (by decide)).2
        (by decide)).2.2.2.2.2.2.2.1 sampleEntry (by decide)).2⟩

/-! ## C4: debounce coalescing lemmas -/

/-- Repeated overwriting of the stamp keeps the last value. -/
theorem foldl_stamp (l : List Nat) :
    ∀ init : Option Nat, l.foldl (fun _ t => some t) init = l.getLast?.or init := by
  induction l with
  | nil => intro init; rfl
  | cons a rest ih =>
    intro init
    rw [List.foldl_cons, ih (some a)]
    cases rest with
    | nil => rfl
    | cons b r2 =>
      rw [List.getLast?_cons_cons]
      cases h : (b :: r2).getLast? with
      | none =>
        exact absurd h (by simp [List.getLast?_eq_getLast_of_ne_nil])
      | some y => rfl

theorem pendingStamp_eq (l : List Nat) :
    pendingStampAfter l = l.getLast?.or none :=
  foldl_stamp l none

/-- In a strictly sorted list every member is at most the last element. -/
theorem sorted_le_getLast? (l : List Nat) (hs : l.Sorted (· < ·)) :
    ∀ x ∈ l, ∀ y, l.getLast? = some y → x ≤ y := by
  induction l with
  | nil => intro x hx; simp at hx
  | cons a rest ih =>
    intro x hx y hy
    cases rest with
    | nil =>
      have hxa : x = a := by simpa using hx
      have hya : y = a := by
        have h0 : (([a] : List Nat)).getLast? = some a := rfl
        rw [h0] at hy
        exact (Option.some.inj hy).symm
      rw [hxa, hya]
    | cons b r2 =>
      rw [List.getLast?_cons_cons] at hy
      have hrs : (b :: r2).Sorted (· < ·) := (List.sorted_cons.1 hs).2
      rcases List.mem_cons.1 hx with h | h
      · have hymem : y ∈ b :: r2 := by
          have h1 := List.getLast?_eq_getLast_of_ne_nil
            (l := b :: r2) (by simp)
          rw [h1] at hy
          rw [← Option.some.inj hy]
          exact List.getLast_mem _
        have hay : a < y := (List.sorted_cons.1 hs).1 y hymem
        rw [h]
        exact le_of_lt hay
      · exact ih hrs x h y hy

/-- The last element of a nonempty list read positionally. -/
theorem getLastD_eq_getD (l : List Nat) (h : l ≠ []) :
    l.getLastD 0 = l.getD (l.length - 1) 0 := by
  rw [List.getLastD_eq_getLast?, List.getLast?_eq_getLast_of_ne_nil h,
    Option.getD_some, List.getLast_eq_getElem, List.getD_eq_getElem]

/-- Positional reads of a strictly sorted list are strictly monotone. -/
theorem sorted_getD_lt (ts : List Nat) (hs : ts.Sorted (· < ·))
    (i j : Nat) (hij : i < j) (hj : j < ts.length) :
    ts.getD i 0 < ts.getD j 0 := by
  have hi : i < ts.length := lt_trans hij hj
  rw [List.getD_eq_getElem _ _ hi, List.getD_eq_getElem _ _ hj]
  exact List.pairwise_iff_get.1 hs ⟨i, hi⟩ ⟨j, hj⟩ hij

/-- Evaluating the staleness check once the observed stamp is known. -/
theorem debouncedExecutes_eval (D : Nat) (ts : List Nat) (i y : Nat)
    (h : stampAt ts (ts.getD i 0 + D) = some y) :
    debouncedExecutes D ts i = !decide (ts.getD i 0 + D - y < D) := by
  unfold debouncedExecutes
  rw [h]

/-- C4: for a burst of at least two modification events on one path, each
    strictly later than the one before and less than the debounce `D` apart,
    exactly the firing scheduled by the last event passes the staleness
    check of `_debounced_process_file` — every earlier firing observes a
    more recent stamp and no-ops — and (the machine form of the check) a
    stale firing leaves the watcher state untouched; the executing firing
    reads the content present at the last event, content being unchanged
    from the last event on. -/
theorem debounce_coalescing (D : Nat) (ts : List Nat)
    (content : Nat → List Char)
    (hN : 2 ≤ ts.length) (hsort : ts.Sorted (· < ·))
    (hgap : ∀ j, j + 1 < ts.length → ts.getD (j + 1) 0 < ts.getD j 0 + D)
    (hconst : ∀ u, ts.getLastD 0 ≤ u → content u = content (ts.getLastD 0)) :
    (∀ i, i < ts.length → (debouncedExecutes D ts i = true ↔ i = ts.length - 1)) ∧
    content (ts.getLastD 0 + D) = content (ts.getLastD 0) ∧
    (∀ (cwd : String) (fs : FS) (s : WatchState) (p : String) (t last : Nat),
      lookupKey s.pendingFiles p = some last → t - last < D →
      debouncedProcess D cwd fs t p s = (s, [])) := by
  have hne : ts ≠ [] := by
    cases ts with
    | nil => simp at hN
    | cons a l => simp
  refine ⟨?_, hconst _ (by omega), ?_⟩
  · intro i hi
    by_cases hiN : i = ts.length - 1
    · subst hiN
      have hlast : ts.getLast? = some (ts.getLastD 0) := by
        rw [List.getLast?_eq_getLast_of_ne_nil hne,
          List.getLastD_eq_getLast?, List.getLast?_eq_getLast_of_ne_nil hne,
          Option.getD_some]
      have hball : ∀ x ∈ ts, x ≤ ts.getD (ts.length - 1) 0 + D := by
        intro x hx
        have h1 := sorted_le_getLast? ts hsort x hx (ts.getLastD 0) hlast
        rw [getLastD_eq_getD ts hne] at h1
        omega
      have hfilter : ts.filter
          (fun u => decide (u ≤ ts.getD (ts.length - 1) 0 + D)) = ts := by
        rw [List.filter_eq_self]
        intro x hx
        simpa using hball x hx
      have hstamp : stampAt ts (ts.getD (ts.length - 1) 0 + D)
          = some (ts.getD (ts.length - 1) 0) := by
        unfold stampAt
        rw [hfilter, pendingStamp_eq, hlast, Option.or_some,
          getLastD_eq_getD ts hne]
      rw [debouncedExecutes_eval D ts _ _ hstamp]
      have harith : ts.getD (ts.length - 1) 0 + D
          - ts.getD (ts.length - 1) 0 = D := by omega
      rw [harith]
      simp
    · have hi1 : i + 1 < ts.length := by omega
      have hfmem : ts.getD (i + 1) 0 ∈
          ts.filter (fun u => decide (u ≤ ts.getD i 0 + D)) := by
        rw [List.mem_filter]
        constructor
        · rw [List.getD_eq_getElem _ _ hi1]
          exact List.getElem_mem hi1
        · have h2 := hgap i hi1
          simp only [decide_eq_true_eq]
          omega
      have hfne : ts.filter (fun u => decide (u ≤ ts.getD i 0 + D)) ≠ [] := by
        intro h
        rw [h] at hfmem
        simp at hfmem
      obtain ⟨y, hy⟩ : ∃ y,
          (ts.filter (fun u => decide (u ≤ ts.getD i 0 + D))).getLast?
            = some y := by
        rw [List.getLast?_eq_getLast_of_ne_nil hfne]
        exact ⟨_, rfl⟩
      have hfsort : (ts.filter
          (fun u => decide (u ≤ ts.getD i 0 + D))).Sorted (· < ·) :=
        List.Pairwise.filter _ hsort
      have hy1 : ts.getD (i + 1) 0 ≤ y :=
        sorted_le_getLast? _ hfsort _ hfmem y hy
      have hymem : y ∈ ts.filter (fun u => decide (u ≤ ts.getD i 0 + D)) := by
        rw [List.getLast?_eq_getLast_of_ne_nil hfne] at hy
        rw [← Option.some.inj hy]
        exact List.getLast_mem _
      have hyb : y ≤ ts.getD i 0 + D := by
        have h3 := (List.mem_filter.1 hymem).2
        simpa using h3
      have hadj : ts.getD i 0 < ts.getD (i + 1) 0 :=
        sorted_getD_lt ts hsort i (i + 1) (by omega) hi1
      have hstamp : stampAt ts (ts.getD i 0 + D) = some y := by
        unfold stampAt
        rw [pendingStamp_eq, hy, Option.or_some]
      rw [debouncedExecutes_eval D ts i y hstamp]
      constructor
      · intro h
        rw [Bool.not_eq_true'] at h
        simp only [decide_eq_false_iff_not] at h
        omega
      · intro h
        exact absurd h hiN
  · intro cwd fs s p t last hl ht
    unfold debouncedProcess
    rw [hl]
    simp only [ht, if_pos]

/-- Witness for C4: two events at 100 and 140 with debounce 50; the firing
    of the first event (at 150) is stale, that of the second (at 190)
    executes. -/
theorem debounce_coalescing_witness :
    (∀ i, i < ([100, 140] : List Nat).length →
      (debouncedExecutes 50 [100, 140] i = true ↔
        i = ([100, 140] : List Nat).length - 1)) ∧
    (fun (_ : Nat) => ([] : List Char)) (([100, 140] : List Nat).getLastD 0 + 50)
      = (fun (_ : Nat) => ([] : List Char)) (([100, 140] : List Nat).getLastD 0) ∧
    (∀ (cwd : String) (fs : FS) (s : WatchState) (p : String) (t last : Nat),
      lookupKey s.pendingFiles p = some last → t - last < 50 →
      debouncedProcess 50 cwd fs t p s = (s, [])) :=
  debounce_coalescing 50 [100, 140] (fun _ => [])
    (by decide) (by decide)
    (by
      intro j hj
      have hj0 : j = 0 := by
        simp at hj
        omega
      subst hj0
      decide)
    (fun u _ => rfl)

/-! ## C3: atomic delete-create rewrite -/

theorem runQueue_zero (D : Nat) (cwd : String) (fs : FS) (q : List TimedAct)
    (s : WatchState) : runQueue D cwd fs 0 q s = s := rfl

theorem runQueue_nil (D : Nat) (cwd : String) (fs : FS) (fuel : Nat)
    (s : WatchState) : runQueue D cwd fs (fuel + 1) [] s = s := rfl

theorem runQueue_cons (D : Nat) (cwd : String) (fs : FS) (fuel : Nat)
    (tk : TimedAct) (rest : List TimedAct) (s : WatchState) :
    runQueue D cwd fs (fuel + 1) (tk :: rest) s
      = runQueue D cwd fs fuel
          ((execTask D cwd fs tk s).2.foldl (fun q n => insertTimed n q) rest)
          (execTask D cwd fs tk s).1 := rfl

/-- Every document `process_file` builds for a path carries that path's
    resolved relative source. -/
theorem mkDocuments_source (cwd p : String) (data : List Char) :
    ∀ c ∈ mkDocuments cwd p data, c.meta.source = relTo cwd (resolve cwd p) := by
  intro c hc
  unfold mkDocuments at hc
  rw [List.mapIdx_eq_enum_map] at hc
  obtain ⟨⟨i, x⟩, -, hcx⟩ := List.mem_map.1 hc
  rw [← hcx]
  rfl

/-- After the debounced re-index, the chunks under the path's source are
    exactly the freshly built documents. -/
theorem getBySource_after_reindex (store : Store) (cwd p : String)
    (data : List Char)
    (hdocnd : ((mkDocuments cwd p data).map (·.id)).Nodup)
    (hfresh : ∀ c ∈ store, c.id ∈ (mkDocuments cwd p data).map (·.id) →
      c.meta.source = relTo cwd (resolve cwd p)) :
    getBySource
        (upsert
          (deleteIds store
            ((getBySource store (relTo cwd (resolve cwd p))).map (·.id)))
          (mkDocuments cwd p data))
        (relTo cwd (resolve cwd p))
      = mkDocuments cwd p data := by
  rw [upsert_fresh]
  · rw [getBySource_append, getBySource_deleteIds_self, List.nil_append]
    unfold getBySource
    rw [List.filter_eq_self]
    intro c hc
    simpa using mkDocuments_source cwd p data c hc
  · intro c hc d hd
    have hmem := List.mem_filter.1 hd
    intro he
    have hid : d.id ∈ (mkDocuments cwd p data).map (·.id) := by
      rw [he]
      exact List.mem_map_of_mem _ hc
    have hsrc := hfresh d hmem.1 hid
    have hdin : d ∈ getBySource store (relTo cwd (resolve cwd p)) :=
      mem_getBySource hmem.1 hsrc
    have h2 := hmem.2
    simp only [Bool.not_eq_true'] at h2
    rw [List.contains_eq_any_beq] at h2
    have h3 : d.id ∈ (getBySource store (relTo cwd (resolve cwd p))).map (·.id) :=
      List.mem_map_of_mem _ hdin
    have h4 : ((getBySource store (relTo cwd (resolve cwd p))).map (·.id)).any
        (fun x => d.id == x) = true := by
      rw [List.any_eq_true]
      exact ⟨d.id, h3, by simp⟩
    rw [h4] at h2
    exact absurd h2 (by simp)
  · exact hdocnd

/-- C3 amended: a create observed for a path with an active pending deletion
    cancels the deletion — the delayed-deletion firing becomes a no-op, so
    the path's chunks are never removed on account of the delete event — and
    the path re-enters the modification pipeline after the short fixed
    delay: `_process_file_change` then applies the full debounce on top, so
    the store-updating firing runs at create time + short delay + debounce
    (not merely after the short delay), and the end state holds exactly the
    documents built from the created file's content. -/
theorem atomic_rewrite_amended (D : Nat) (temp : String → Bool)
    (cwd p : String) (fs : FS) (s0 : WatchState) (t0 t1 : Nat) (fv : FileView)
    (hD : graceDs ≤ D)
    (helig : watchEligible cwd p = true)
    (ht01 : t0 ≤ t1) (_hgrace : t1 < t0 + graceDs)
    (hfs : ∀ u, t1 ≤ u → fs u p = some fv)
    (hdata : fv.data ≠ [])
    (hdocnd : ((mkDocuments cwd p fv.data).map (·.id)).Nodup)
    (hfresh : ∀ c ∈ s0.store, c.id ∈ (mkDocuments cwd p fv.data).map (·.id) →
      c.meta.source = relTo cwd (resolve cwd p)) :
    (onCreated D temp cwd fs t1 p (onDeleted cwd t0 p s0).1).2
      = [(t1 + shortDelayDs, TAct.fileChange p)] ∧
    (∀ (u : Nat) (s : WatchState), (processFileChange D u p s).2
      = [(u + D, TAct.debounced p)]) ∧
    (∀ (u : Nat) (s : WatchState), lookupKey s.pendingDeletions p = none →
      delayedDeletion D cwd fs u p s = (s, [])) ∧
    getBySource
        (runQueue D cwd fs 4
          (((onCreated D temp cwd fs t1 p (onDeleted cwd t0 p s0).1).2).foldl
            (fun q n => insertTimed n q) (onDeleted cwd t0 p s0).2)
          (onCreated D temp cwd fs t1 p (onDeleted cwd t0 p s0).1).1).store
        (relTo cwd (resolve cwd p))
      = mkDocuments cwd p fv.data ∧
    lookupKey
        (runQueue D cwd fs 4
          (((onCreated D temp cwd fs t1 p (onDeleted cwd t0 p s0).1).2).foldl
            (fun q n => insertTimed n q) (onDeleted cwd t0 p s0).2)
          (onCreated D temp cwd fs t1 p (onDeleted cwd t0 p s0).1).1).pendingDeletions
        p = none := by
  have honDel : onDeleted cwd t0 p s0
      = ({ s0 with pendingDeletions := setKey s0.pendingDeletions p t0 },
         [(t0 + graceDs, TAct.delayedDel p)]) := by
    unfold onDeleted scheduleDelayedDeletion
    rw [if_pos helig]
  have hlook1 : lookupKey (onDeleted cwd t0 p s0).1.pendingDeletions p
      = some t0 := by
    rw [honDel]
    exact lookup_setKey_self s0.pendingDeletions p t0
  have honCre : onCreated D temp cwd fs t1 p (onDeleted cwd t0 p s0).1
      = ({ (onDeleted cwd t0 p s0).1 with
            pendingDeletions :=
              removeKey (onDeleted cwd t0 p s0).1.pendingDeletions p },
         [(t1 + shortDelayDs, TAct.fileChange p)]) := by
    unfold onCreated
    rw [if_pos helig, hlook1]
    rfl
  have hddNoop : ∀ (u : Nat) (s : WatchState),
      lookupKey s.pendingDeletions p = none →
      delayedDeletion D cwd fs u p s = (s, []) := by
    intro u s h
    unfold delayedDeletion
    rw [h]
  refine ⟨by rw [honCre], fun u s => rfl, hddNoop, ?_⟩
  set s2 := (onCreated D temp cwd fs t1 p (onDeleted cwd t0 p s0).1).1 with hs2
  have hs2pd : lookupKey s2.pendingDeletions p = none := by
    rw [hs2, honCre]
    exact lookup_removeKey_self _ _
  have hs2store : s2.store = s0.store := by
    rw [hs2, honCre, honDel]
  have hqueue :
      ((onCreated D temp cwd fs t1 p (onDeleted cwd t0 p s0).1).2).foldl
          (fun q n => insertTimed n q) (onDeleted cwd t0 p s0).2
        = insertTimed (t1 + shortDelayDs, TAct.fileChange p)
            [(t0 + graceDs, TAct.delayedDel p)] := by
    rw [honCre, honDel]
    rfl
  rw [hqueue]
  -- the state after `_process_file_change` runs at the short delay
  set s3 := { s2 with
      pendingDeletions := removeKey s2.pendingDeletions p
      pendingFiles := setKey s2.pendingFiles p (t1 + shortDelayDs) } with hs3
  have hfcExec : execTask D cwd fs (t1 + shortDelayDs, TAct.fileChange p) s2
      = (s3, [(t1 + shortDelayDs + D, TAct.debounced p)]) := rfl
  have hs3pd : lookupKey s3.pendingDeletions p = none := by
    rw [hs3]
    exact lookup_removeKey_self _ _
  have hs3pf : lookupKey s3.pendingFiles p = some (t1 + shortDelayDs) := by
    rw [hs3]
    exact lookup_setKey_self _ _ _
  have hddExec3 : execTask D cwd fs (t0 + graceDs, TAct.delayedDel p) s3
      = (s3, []) := by
    unfold execTask
    exact hddNoop _ s3 hs3pd
  have hddExec2 : execTask D cwd fs (t0 + graceDs, TAct.delayedDel p) s2
      = (s2, []) := by
    unfold execTask
    exact hddNoop _ s2 hs2pd
  have hdebExec : execTask D cwd fs (t1 + shortDelayDs + D, TAct.debounced p) s3
      = ({ s3 with
            store := upsert
              (deleteIds s3.store
                ((getBySource s3.store (relTo cwd (resolve cwd p))).map (·.id)))
              (mkDocuments cwd p fv.data)
            cacheFiles := setKey s3.cacheFiles (resolve cwd p)
              (mkCacheEntry (t1 + shortDelayDs + D) fv)
            pendingFiles := removeKey s3.pendingFiles p },
         []) := by
    show debouncedProcess D cwd fs (t1 + shortDelayDs + D) p s3 = _
    unfold debouncedProcess
    rw [hs3pf]
    have hnl : ¬(t1 + shortDelayDs + D - (t1 + shortDelayDs) < D) := by omega
    refine Eq.trans (if_neg hnl) ?_
    unfold debouncedRun
    rw [hfs (t1 + shortDelayDs + D) (by omega)]
    have hie : ¬(fv.data.isEmpty = true) := by
      cases h : fv.data with
      | nil => exact absurd h hdata
      | cons a l => simp [h]
    exact if_neg hie
  have hfinalStore : ∀ (sf : WatchState),
      sf.store = upsert
          (deleteIds s0.store
            ((getBySource s0.store (relTo cwd (resolve cwd p))).map (·.id)))
          (mkDocuments cwd p fv.data) →
      getBySource sf.store (relTo cwd (resolve cwd p))
        = mkDocuments cwd p fv.data := by
    intro sf hsf
    rw [hsf]
    exact getBySource_after_reindex s0.store cwd p fv.data hdocnd hfresh
  by_cases hAB : t1 + shortDelayDs < t0 + graceDs
  · -- the short-delay reprocessing is queued before the grace timer
    have hq1 : insertTimed (t1 + shortDelayDs, TAct.fileChange p)
        [(t0 + graceDs, TAct.delayedDel p)]
        = [(t1 + shortDelayDs, TAct.fileChange p),
           (t0 + graceDs, TAct.delayedDel p)] := by
      unfold insertTimed
      rw [if_pos hAB]
    rw [hq1, runQueue_cons, hfcExec]
    have hq2 : ([(t1 + shortDelayDs + D, TAct.debounced p)]).foldl
        (fun q n => insertTimed n q) [(t0 + graceDs, TAct.delayedDel p)]
        = [(t0 + graceDs, TAct.delayedDel p),
           (t1 + shortDelayDs + D, TAct.debounced p)] := by
      rw [List.foldl_cons, List.foldl_nil]
      unfold insertTimed
      rw [if_neg (by omega)]
      rfl
    rw [hq2, runQueue_cons, hddExec3]
    simp only [List.foldl_nil]
    rw [runQueue_cons, hdebExec]
    simp only [List.foldl_nil]
    rw [runQueue_nil]
    refine ⟨?_, ?_⟩
    · apply hfinalStore
      simp only
      rw [hs2store]
    · simp only
      exact lookup_removeKey_self _ _
  · -- the grace timer fires first and is a no-op
    have hq1 : insertTimed (t1 + shortDelayDs, TAct.fileChange p)
        [(t0 + graceDs, TAct.delayedDel p)]
        = [(t0 + graceDs, TAct.delayedDel p),
           (t1 + shortDelayDs, TAct.fileChange p)] := by
      unfold insertTimed
      rw [if_neg hAB]
      rfl
    rw [hq1, runQueue_cons, hddExec2]
    simp only [List.foldl_nil]
    rw [runQueue_cons, hfcExec]
    have hq2 : ([(t1 + shortDelayDs + D, TAct.debounced p)]).foldl
        (fun q n => insertTimed n q) []
        = [(t1 + shortDelayDs + D, TAct.debounced p)] := rfl
    rw [hq2, runQueue_cons, hdebExec]
    simp only [List.foldl_nil]
    rw [runQueue_nil]
    refine ⟨?_, ?_⟩
    · apply hfinalStore
      simp only
      rw [hs2store]
    · simp only
      exact lookup_removeKey_self _ _

/-- A filesystem for the C3 scenario: `/p/a.md` exists with content `x`
    from time 15 on. -/
def cexFS : FS := fun u q =>
  if 15 ≤ u && q == "/p/a.md" then some { data := ['x'], mtime := 3 } else none

/-- C3 counterexample: with the watcher defaults (debounce 50 tenths), a
    create at time 15 for a path whose deletion is pending cancels the
    deletion but only schedules `_process_file_change` at the short delay
    (time 20); that handler performs no store work — it starts a full
    debounce timer, so the store-updating firing runs at 70 = create time +
    short delay + full debounce, not after the short delay instead of the
    debounce as the claim states. -/
theorem atomic_rewrite_counterexample :
    (onCreated 50 (fun _ => false) "/p" cexFS 15 "/p/a.md" sampleWatch).2
      = [(15 + shortDelayDs, TAct.fileChange "/p/a.md")] ∧
    (processFileChange 50 (15 + shortDelayDs) "/p/a.md"
        (onCreated 50 (fun _ => false) "/p" cexFS 15 "/p/a.md" sampleWatch).1).2
      = [(15 + shortDelayDs + 50, TAct.debounced "/p/a.md")] ∧
    (processFileChange 50 (15 + shortDelayDs) "/p/a.md"
        (onCreated 50 (fun _ => false) "/p" cexFS 15 "/p/a.md" sampleWatch).1).1.store
      = sampleWatch.store ∧
    15 + shortDelayDs + 50 ≠ 15 + shortDelayDs := by
  refine ⟨by decide, by decide, by decide, by decide⟩

/-- Witness for C3 amended: delete at 0, create at 15, content `x`; the end
    state carries exactly the freshly built document and no pending
    deletion. -/
theorem atomic_rewrite_amended_witness :
    (onCreated 50 (fun _ => false) "/p" cexFS 15 "/p/a.md"
        (onDeleted "/p" 0 "/p/a.md" sampleWatch).1).2
      = [(15 + shortDelayDs, TAct.fileChange "/p/a.md")] ∧
    (∀ (u : Nat) (s : WatchState), (processFileChange 50 u "/p/a.md" s).2
      = [(u + 50, TAct.debounced "/p/a.md")]) ∧
    (∀ (u : Nat) (s : WatchState),
      lookupKey s.pendingDeletions "/p/a.md" = none →
      delayedDeletion 50 "/p" cexFS u "/p/a.md" s = (s, [])) ∧
    getBySource
        (runQueue 50 "/p" cexFS 4
          (((onCreated 50 (fun _ => false) "/p" cexFS 15 "/p/a.md"
              (onDeleted "/p" 0 "/p/a.md" sampleWatch).1).2).foldl
            (fun q n => insertTimed n q)
            (onDeleted "/p" 0 "/p/a.md" sampleWatch).2)
          (onCreated 50 (fun _ => false) "/p" cexFS 15 "/p/a.md"
            (onDeleted "/p" 0 "/p/a.md" sampleWatch).1).1).store
        (relTo "/p" (resolve "/p" "/p/a.md"))
      = mkDocuments "/p" "/p/a.md" ['x'] ∧
    lookupKey
        (runQueue 50 "/p" cexFS 4
          (((onCreated 50 (fun _ => false) "/p" cexFS 15 "/p/a.md"
              (onDeleted "/p" 0 "/p/a.md" sampleWatch).1).2).foldl
            (fun q n => insertTimed n q)
            (onDeleted "/p" 0 "/p/a.md" sampleWatch).2)
          (onCreated 50 (fun _ => false) "/p" cexFS 15 "/p/a.md"
            (onDeleted "/p" 0 "/p/a.md" sampleWatch).1).1).pendingDeletions
        "/p/a.md" = none :=
  atomic_rewrite_amended 50 (fun _ => false) "/p" "/p/a.md" cexFS sampleWatch
    0 15 { data := ['x'], mtime := 3 }
    (by decide) (by decide) (by decide) (by decide)
    (fun u hu => by simp [cexFS, hu]) (by decide) (by decide) (by decide)

end Ingest
